import Mathlib

/-!
Verification of the runtime structural type matcher of `pytest_assert_type`
(`src/pytest_assert_type/validator.py`), as a shallow embedding.

Runtime values are modelled by `Value` (booleans, integers, text, lists,
tuples, mappings and dataclass instances), expected-type descriptors by
`TypeSpec`.  The Python `bool` class is a subclass of `int`; the instance checks
below reflect that.  Dataclass classes are identified by their name,
declared type parameters and resolved field annotations, which models class
identity.  Literal descriptors carry concrete scalar literals (`LitVal`);
their comparison against runtime values follows Python `==`, under which
`True == 1` and `False == 0`.  Floats, bytes, sets and `None` are outside
the modelled fragment; they do not occur in any property below.
-/

namespace PAT

/-- A concrete literal admissible inside a `Literal[...]` descriptor. -/
inductive LitVal where
  | int (n : Int)
  | bool (b : Bool)
  | str (s : String)
deriving DecidableEq

/-- Typing-style specification objects, mirroring the Python typing forms the
validator dispatches on (`Any`, plain classes, unions, literals, builtin
container aliases, dataclasses, `TypedDict` classes, `NewType` aliases and
bare type variables).  A dataclass type carries its name, its declared type
parameters (`__parameters__`) and its resolved field annotations
(`typing.get_type_hints` restricted to `dataclasses.fields`). -/
inductive TypeSpec where
  | any
  | clsBool
  | clsInt
  | clsStr
  | union (opts : List TypeSpec)
  | lit (vals : List LitVal)
  | listOf (elem : TypeSpec)
  | dictOf (key : TypeSpec) (val : TypeSpec)
  | tupleFixed (elems : List TypeSpec)
  | tupleVar (elem : TypeSpec)
  | dataCls (name : String) (params : List String) (fields : List (String × TypeSpec))
  | typedDict (name : String) (ann : List (String × TypeSpec)) (required : List String)
  | genericAlias (name : String) (params : List String)
      (fields : List (String × TypeSpec)) (args : List TypeSpec)
  | typeVar (name : String)
  | alias (name : String) (underlying : TypeSpec)

/-- Runtime values over which the validator operates.  A dataclass instance
carries its class data (name, declared type parameters) and, for each field,
the field name, its resolved annotation and the stored value. -/
inductive Value where
  | bool (b : Bool)
  | int (n : Int)
  | str (s : String)
  | list (xs : List Value)
  | tuple (xs : List Value)
  | dict (entries : List (Value × Value))
  | inst (clsName : String) (clsParams : List String)
      (fields : List (String × TypeSpec × Value))

mutual
/-- Structural equality of specification objects (Python object identity for
classes, structural comparison for parameterized aliases). -/
def specEq : TypeSpec → TypeSpec → Bool
  | .any, t => match t with | .any => true | _ => false
  | .clsBool, t => match t with | .clsBool => true | _ => false
  | .clsInt, t => match t with | .clsInt => true | _ => false
  | .clsStr, t => match t with | .clsStr => true | _ => false
  | .union xs, t => match t with | .union ys => listSpecEq xs ys | _ => false
  | .lit xs, t => match t with | .lit ys => xs = ys | _ => false
  | .listOf a, t => match t with | .listOf b => specEq a b | _ => false
  | .dictOf k v, t => match t with | .dictOf k' v' => specEq k k' && specEq v v' | _ => false
  | .tupleFixed xs, t => match t with | .tupleFixed ys => listSpecEq xs ys | _ => false
  | .tupleVar a, t => match t with | .tupleVar b => specEq a b | _ => false
  | .dataCls n p f, t =>
      match t with
      | .dataCls n' p' f' => n = n' && p = p' && fieldsEq f f'
      | _ => false
  | .typedDict n a r, t =>
      match t with
      | .typedDict n' a' r' => n = n' && fieldsEq a a' && r = r'
      | _ => false
  | .genericAlias n p f as, t =>
      match t with
      | .genericAlias n' p' f' as' => n = n' && p = p' && fieldsEq f f' && listSpecEq as as'
      | _ => false
  | .typeVar a, t => match t with | .typeVar b => a = b | _ => false
  | .alias n u, t => match t with | .alias n' u' => n = n' && specEq u u' | _ => false

/-- Elementwise structural equality of spec lists. -/
def listSpecEq : List TypeSpec → List TypeSpec → Bool
  | [], [] => true
  | x :: xs, y :: ys => specEq x y && listSpecEq xs ys
  | _, _ => false

/-- Elementwise structural equality of annotation tables. -/
def fieldsEq : List (String × TypeSpec) → List (String × TypeSpec) → Bool
  | [], [] => true
  | (a, s) :: xs, (b, t) :: ys => a = b && specEq s t && fieldsEq xs ys
  | _, _ => false
end

/-! ### Pretty printing (`_pretty_type`) -/

/-- `sep.join(xs)`: concatenate with a separator between consecutive items. -/
def joinSep (sep : String) : List String → String
  | [] => ""
  | [x] => x
  | x :: xs => x ++ sep ++ joinSep sep xs

/-- Python `repr` of a literal value, as used when printing `Literal[...]`
descriptors (string escaping is not modelled; the literals appearing in the
properties below contain no quotes). -/
def pyReprLit : LitVal → String
  | .int n => toString n
  | .bool b => if b then "True" else "False"
  | .str s => "'" ++ s ++ "'"

mutual
/-- `_pretty_type`: render a stable, compact representation of a typing spec
for error messages. -/
def pretty : TypeSpec → String
  | .alias n _ => n
  | .any => "typing.Any"
  | .clsBool => "bool"
  | .clsInt => "int"
  | .clsStr => "str"
  | .union opts => prettyList " | " opts
  | .lit vals => "Literal[" ++ joinSep "," (vals.map pyReprLit) ++ "]"
  | .listOf e => "list[" ++ pretty e ++ "]"
  | .dictOf k v => "dict[" ++ pretty k ++ "," ++ pretty v ++ "]"
  | .tupleFixed es => "tuple[" ++ prettyList "," es ++ "]"
  | .tupleVar e => "tuple[" ++ pretty e ++ ",...]"
  | .dataCls n _ _ => n
  | .typedDict n _ _ => n
  | .genericAlias n _ _ args => n ++ "[" ++ prettyList "," args ++ "]"
  | .typeVar n => "~" ++ n

/-- `sep.join` of the printed forms of a list of specs. -/
def prettyList (sep : String) : List TypeSpec → String
  | [] => ""
  | [x] => pretty x
  | x :: xs => pretty x ++ sep ++ prettyList sep xs
end

/-! ### Python `==` between a runtime value and a literal -/

/-- Python value equality between a runtime value and a `Literal` option;
in Python, `True == 1` and `False == 0`. -/
def pyEqValLit : Value → LitVal → Bool
  | .bool b, .bool b' => b = b'
  | .bool b, .int n => (if b then (1 : Int) else 0) = n
  | .int n, .bool b => n = (if b then (1 : Int) else 0)
  | .int n, .int m => n = m
  | .str s, .str s' => s = s'
  | _, _ => false

/-- Python `==` between a mapping key (a runtime value) and a field-name
string; a non-string value never equals a string. -/
def keyEqStr : Value → String → Bool
  | .str s, k => s = k
  | _, _ => false

/-! ### Runtime union construction (Python `X | Y`) -/

/-- The operand list a spec contributes to a union: unions are flattened. -/
def optsList : TypeSpec → List TypeSpec
  | .union os => os
  | t => [t]

mutual
/-- Python `==` on typing objects: structural comparison, except that unions
compare as unordered collections of options and `Literal` compares as an
unordered collection of (type-tagged) values; classes compare by identity
(structural equality on their modelled data). -/
def pyEqSpec : TypeSpec → TypeSpec → Bool
  | .union xs, t => match t with | .union ys => subPyEq xs ys && supPyEq xs ys | _ => false
  | .lit xs, t =>
      match t with
      | .lit ys => (xs.all fun x => ys.contains x) && (ys.all fun y => xs.contains y)
      | _ => false
  | .listOf a, t => match t with | .listOf b => pyEqSpec a b | _ => false
  | .dictOf k v, t => match t with | .dictOf k' v' => pyEqSpec k k' && pyEqSpec v v' | _ => false
  | .tupleFixed xs, t => match t with | .tupleFixed ys => listPyEq xs ys | _ => false
  | .tupleVar a, t => match t with | .tupleVar b => pyEqSpec a b | _ => false
  | .genericAlias n p f as, t =>
      match t with
      | .genericAlias n' p' f' as' => n = n' && p = p' && fieldsEq f f' && listPyEq as as'
      | _ => false
  | s, t => specEq s t
termination_by s t => sizeOf s + sizeOf t
decreasing_by all_goals (simp_wf; try omega)

/-- Every element of the first list is `==` to some element of the second. -/
def subPyEq : List TypeSpec → List TypeSpec → Bool
  | [], _ => true
  | x :: xs, ys => anyRightPyEq x ys && subPyEq xs ys
termination_by xs ys => sizeOf xs + sizeOf ys
decreasing_by all_goals (simp_wf; try omega)

/-- Every element of the second list is `==` to some element of the first. -/
def supPyEq : List TypeSpec → List TypeSpec → Bool
  | _, [] => true
  | xs, y :: ys => anyLeftPyEq xs y && supPyEq xs ys
termination_by xs ys => sizeOf xs + sizeOf ys
decreasing_by all_goals (simp_wf; try omega)

/-- `x` is `==` to some element of `ys`. -/
def anyRightPyEq : TypeSpec → List TypeSpec → Bool
  | _, [] => false
  | x, y :: ys => pyEqSpec x y || anyRightPyEq x ys
termination_by x ys => sizeOf x + sizeOf ys
decreasing_by all_goals (simp_wf; try omega)

/-- Some element of `xs` is `==` to `y`. -/
def anyLeftPyEq : List TypeSpec → TypeSpec → Bool
  | [], _ => false
  | x :: xs, y => pyEqSpec x y || anyLeftPyEq xs y
termination_by xs y => sizeOf xs + sizeOf y
decreasing_by all_goals (simp_wf; try omega)

/-- Elementwise `==` of spec lists of equal length. -/
def listPyEq : List TypeSpec → List TypeSpec → Bool
  | [], [] => true
  | x :: xs, y :: ys => pyEqSpec x y && listPyEq xs ys
  | _, _ => false
termination_by xs ys => sizeOf xs + sizeOf ys
decreasing_by all_goals (simp_wf; try omega)
end


/-- Deduplication of union operands by Python `==`, keeping first
occurrences, as performed when a runtime union object is constructed. -/
def dedupPyEqAux (kept : List TypeSpec) : List TypeSpec → List TypeSpec
  | [] => []
  | x :: xs =>
      if kept.any (fun u => pyEqSpec u x) then dedupPyEqAux kept xs
      else x :: dedupPyEqAux (kept ++ [x]) xs

/-- Python `a | b` on typing objects: flatten union operands, deduplicate by
`==` keeping first occurrences; a single remaining operand is returned
directly, otherwise a union of the remaining operands is built. -/
def pyOr (a b : TypeSpec) : TypeSpec :=
  match dedupPyEqAux [] (optsList a ++ optsList b) with
  | [x] => x
  | ys => .union ys

/-! ### `_unionize` -/

/-- The `unique_by_text` loop of `_unionize`: keep the first spec for each
distinct printed form (`dict.setdefault` keyed on `_pretty_type`). -/
def dedupPrettyAux (seen : List String) : List TypeSpec → List TypeSpec
  | [] => []
  | t :: ts =>
      if seen.contains (pretty t) then dedupPrettyAux seen ts
      else t :: dedupPrettyAux (pretty t :: seen) ts

/-- Deduplicate a spec list by printed form, keeping first occurrences. -/
def dedupPretty (ts : List TypeSpec) : List TypeSpec := dedupPrettyAux [] ts

/-- `_unionize`: a single type spec that is the union (or the unique
element) of the given list; the empty list yields `Any`. -/
def unionize (ts : List TypeSpec) : TypeSpec :=
  if ts.isEmpty then .any
  else
    match dedupPretty ts with
    | [] => .any
    | [t] => t
    | t :: rest => rest.foldl pyOr t

/-! ### Type-variable binding and substitution -/

/-- `_bind_type_variables_for_generic`: map the declared type variables of a
generic class positionally to the concrete parameters (`zip`, stopping at
the shorter list). -/
def bindTV (params : List String) (args : List TypeSpec) : List (String × TypeSpec) :=
  params.zip args

/-- Look up a type variable in a binding map (`mapping.get(tv, tv)`). -/
def lookupTV (m : List (String × TypeSpec)) (x : String) : Option TypeSpec :=
  (m.find? (fun e => e.1 = x)).map (·.2)

/-- `_substitute_type_variables`: recursively substitute type variables using
the binding map.  Specs without arguments (plain classes, `NewType` aliases,
empty parameterizations) are returned unchanged; `Literal` contents are
values, on which substitution is the identity; unions are rebuilt with the
runtime union operator. -/
def substTV (t : TypeSpec) (m : List (String × TypeSpec)) : TypeSpec :=
  match t with
  | .typeVar x => (lookupTV m x).getD (.typeVar x)
  | .union opts =>
      match opts.attach.map (fun o => substTV o.1 m) with
      | [] => t
      | s :: ss => ss.foldl pyOr s
  | .listOf e => .listOf (substTV e m)
  | .dictOf k v => .dictOf (substTV k m) (substTV v m)
  | .tupleVar e => .tupleVar (substTV e m)
  | .tupleFixed es =>
      if es.isEmpty then t
      else .tupleFixed (es.attach.map fun e => substTV e.1 m)
  | .genericAlias n p f args =>
      if args.isEmpty then t
      else .genericAlias n p f (args.attach.map fun a => substTV a.1 m)
  | _ => t
termination_by sizeOf t
decreasing_by
  all_goals simp_wf
  all_goals first
    | omega
    | (have h9 := List.sizeOf_lt_of_mem o.2; omega)
    | (have h9 := List.sizeOf_lt_of_mem e.2; omega)
    | (have h9 := List.sizeOf_lt_of_mem a.2; omega)

/-! ### The matcher (`_matches`, `_matches_dataclass_fields`) -/

/-- `value[key]` on a mapping value, for a string key (first entry whose key
compares `==` to the string). -/
def tdLookup (es : List (Value × Value)) (k : String) : Option Value :=
  (es.find? fun e => keyEqStr e.1 k).map (·.2)

/-- `getattr(instance, name)` on the field table of a dataclass instance. -/
def fieldLookup (fs : List (String × TypeSpec × Value)) (n : String) : Option Value :=
  (fs.find? fun e => e.1 = n).map (fun e => e.2.2)

theorem sizeOf_tdLookup {es : List (Value × Value)} {k : String} {w : Value}
    (h : tdLookup es k = some w) : sizeOf w < sizeOf es := by
  unfold tdLookup at h
  match hf : es.find? fun e => keyEqStr e.1 k with
  | none => rw [hf] at h; simp at h
  | some e =>
      rw [hf] at h
      simp at h
      have hmem := List.mem_of_find?_eq_some hf
      have hlt := List.sizeOf_lt_of_mem hmem
      have h2 : sizeOf e.2 < sizeOf es := by cases e; simp at hlt ⊢; omega
      rw [h] at h2
      exact h2

theorem sizeOf_fieldLookup {fs : List (String × TypeSpec × Value)} {n : String} {w : Value}
    (h : fieldLookup fs n = some w) : sizeOf w < sizeOf fs := by
  unfold fieldLookup at h
  match hf : fs.find? fun e => e.1 = n with
  | none => rw [hf] at h; simp at h
  | some e =>
      rw [hf] at h
      simp at h
      have hmem := List.mem_of_find?_eq_some hf
      have hlt := List.sizeOf_lt_of_mem hmem
      have h2 : sizeOf e.2.2 < sizeOf fs := by
        obtain ⟨a, b, c⟩ := e; simp at hlt ⊢; omega
      rw [h] at h2
      exact h2

/-- `isinstance(value, cls)` for a (modelled) dataclass class: the instance
carries the same class data. -/
def isInstOf (v : Value) (n : String) (p : List String)
    (f : List (String × TypeSpec)) : Bool :=
  match v with
  | .inst n' p' fs => n' = n && p' = p && fieldsEq (fs.map fun e => (e.1, e.2.1)) f
  | _ => false

mutual
/-- `_matches(value, expected_type)`: `Any` accepts everything; otherwise
`NewType` aliases are unwrapped and the spec is dispatched on. -/
def matchesVal (v : Value) (t : TypeSpec) : Bool :=
  match t with
  | .any => true
  | t => matchesCore v t
termination_by (sizeOf v, sizeOf t, 1)

/-- The body of `_matches` past the initial `Any` test: plain classes by
`isinstance` (dataclasses additionally check their fields, `TypedDict`
classes check the keys of the mapping), unions by any branch, literals by value
equality, containers structurally, parameterized dataclasses by binding and
substituting type variables, and anything unrecognized — bare type
variables, or `Any` reached by unwrapping a `NewType` — yields `False`. -/
def matchesCore (v : Value) (t : TypeSpec) : Bool :=
  match t with
  | .alias _ u => matchesCore v u
  | .any => false
  | .clsBool => match v with | .bool _ => true | _ => false
  | .clsInt => match v with | .bool _ => true | .int _ => true | _ => false
  | .clsStr => match v with | .str _ => true | _ => false
  | .dataCls n p f =>
      match v with
      | .inst n' p' fs =>
          if isInstOf (.inst n' p' fs) n p f then matchesFields fs f [] else false
      | _ => false
  | .typedDict _ ann req =>
      match v with
      | .dict es =>
          (req.all fun k => es.any fun e => keyEqStr e.1 k) &&
          ((es.all fun e => ann.any fun a => keyEqStr e.1 a.1) &&
            (ann.attach.all fun a =>
              match h : tdLookup es a.1.1 with
              | some w =>
                  have : sizeOf w < 1 + sizeOf es := by
                    have := sizeOf_tdLookup h; omega
                  matchesVal w a.1.2
              | none => !(req.contains a.1.1)))
      | _ => false
  | .union opts =>
      opts.attach.any fun o =>
        have : sizeOf o.1 < 1 + sizeOf opts := by
          have := List.sizeOf_lt_of_mem o.2; omega
        matchesVal v o.1
  | .lit vals => vals.any fun l => pyEqValLit v l
  | .listOf e =>
      match v with
      | .list xs =>
          xs.attach.all fun x =>
            have : sizeOf x.1 < 1 + sizeOf xs := by
              have := List.sizeOf_lt_of_mem x.2; omega
            matchesVal x.1 e
      | _ => false
  | .dictOf kt vt =>
      match v with
      | .dict es =>
          es.attach.all fun e =>
            match e with
            | ⟨(a, b), hm⟩ =>
                have : sizeOf a < 1 + sizeOf es ∧ sizeOf b < 1 + sizeOf es := by
                  have := List.sizeOf_lt_of_mem hm
                  simp at this
                  constructor <;> omega
                matchesVal a kt && matchesVal b vt
      | _ => false
  | .tupleVar e =>
      match v with
      | .tuple xs =>
          xs.attach.all fun x =>
            have : sizeOf x.1 < 1 + sizeOf xs := by
              have := List.sizeOf_lt_of_mem x.2; omega
            matchesVal x.1 e
      | _ => false
  | .tupleFixed es =>
      if es.isEmpty then match v with | .tuple _ => true | _ => false
      else
        match v with
        | .tuple xs => xs.length = es.length && listMatches xs es
        | _ => false
  | .genericAlias n p f args =>
      match v with
      | .inst n' p' fs =>
          if isInstOf (.inst n' p' fs) n p f then matchesFields fs f (bindTV p args)
          else false
      | _ => false
  | .typeVar _ => false
termination_by (sizeOf v, sizeOf t, 0)

/-- Positionwise matching of tuple elements against element specs. -/
def listMatches : List Value → List TypeSpec → Bool
  | [], _ => true
  | _, [] => true
  | x :: xs, e :: es => matchesVal x e && listMatches xs es
termination_by xs es => (sizeOf xs, sizeOf es, 0)

/-- `_matches_dataclass_fields`: the stored value of each annotated field must
match its (typevar-substituted, when bindings are present) annotation. -/
def matchesFields (fs : List (String × TypeSpec × Value))
    (anns : List (String × TypeSpec)) (bound : List (String × TypeSpec)) : Bool :=
  anns.attach.all fun a =>
    match h : fieldLookup fs a.1.1 with
    | some w =>
        have : sizeOf w < sizeOf fs := sizeOf_fieldLookup h
        matchesVal w (if bound.isEmpty then a.1.2 else substTV a.1.2 bound)
    | none => false
termination_by (sizeOf fs, sizeOf anns, 0)
end

/-! ### Value shape inference (`_infer_type_spec_from_value`) -/

/-- The `inferred_mapping` dict built with `setdefault`: first occurrence of
each type-variable key wins, insertion order is kept. -/
def setdefaultFold (raw : List (String × TypeSpec)) : List (String × TypeSpec) :=
  raw.foldl (fun acc kv => if (acc.find? (fun e => e.1 = kv.1)).isSome then acc else acc ++ [kv]) []

/-- `_infer_type_spec_from_value`: build a typing-style spec describing the
runtime shape of a value.  Booleans stay distinct from integers; container
element specs are unionized; tuples keep exact arity; dataclass instances of
a generic class are parameterized when every declared type variable is the
annotation of some field (first such field wins), and otherwise fall back to
the bare class. -/
def infer (v : Value) : TypeSpec :=
  match v with
  | .bool _ => .clsBool
  | .int _ => .clsInt
  | .str _ => .clsStr
  | .list xs =>
      .listOf (unionize (xs.attach.map fun (x : {a // a ∈ xs}) =>
        have : sizeOf x.1 < 1 + sizeOf xs := by
          have := List.sizeOf_lt_of_mem x.2; omega
        infer x.1))
  | .tuple xs =>
      .tupleFixed (xs.attach.map fun (x : {a // a ∈ xs}) =>
        have : sizeOf x.1 < 1 + sizeOf xs := by
          have := List.sizeOf_lt_of_mem x.2; omega
        infer x.1)
  | .dict es =>
      if es.isEmpty then .dictOf .any .any
      else
        .dictOf
          (unionize (es.attach.map fun e =>
            match e with
            | ⟨(a, b), hm⟩ =>
                have : sizeOf a < 1 + sizeOf es := by
                  have := List.sizeOf_lt_of_mem hm; simp at this; omega
                infer a))
          (unionize (es.attach.map fun e =>
            match e with
            | ⟨(a, b), hm⟩ =>
                have : sizeOf b < 1 + sizeOf es := by
                  have := List.sizeOf_lt_of_mem hm; simp at this; omega
                infer b))
  | .inst n p fs =>
      if p.isEmpty then .dataCls n p (fs.map fun e => (e.1, e.2.1))
      else
        let m := setdefaultFold (fs.attach.filterMap fun e =>
          match e with
          | ⟨(fn, .typeVar x, w), hm⟩ =>
              have : sizeOf w < 1 + sizeOf n + sizeOf p + sizeOf fs := by
                have := List.sizeOf_lt_of_mem hm; simp at this; omega
              some (x, infer w)
          | _ => none)
        if !m.isEmpty && p.all (fun tv => ((m.find? (fun e => e.1 = tv)).isSome : Bool)) then
          .genericAlias n p (fs.map fun e => (e.1, e.2.1))
            (p.map fun tv => (((m.find? (fun e => e.1 = tv)).map (·.2)).getD .any))
        else .dataCls n p (fs.map fun e => (e.1, e.2.1))
termination_by sizeOf v

/-- Values built without dataclass instances. -/
def noInst : Value → Bool
  | .bool _ => true
  | .int _ => true
  | .str _ => true
  | .list xs =>
      xs.attach.all fun x =>
        have : sizeOf x.1 < 1 + sizeOf xs := by
          have := List.sizeOf_lt_of_mem x.2; omega
        noInst x.1
  | .tuple xs =>
      xs.attach.all fun x =>
        have : sizeOf x.1 < 1 + sizeOf xs := by
          have := List.sizeOf_lt_of_mem x.2; omega
        noInst x.1
  | .dict es =>
      es.attach.all fun e =>
        match e with
        | ⟨(a, b), hm⟩ =>
            have : sizeOf a < 1 + sizeOf es ∧ sizeOf b < 1 + sizeOf es := by
              have := List.sizeOf_lt_of_mem hm; simp at this; constructor <;> omega
            noInst a && noInst b
  | .inst _ _ _ => false
termination_by v => sizeOf v

/-! ### Public API (`validate`, `ValidationError`) -/

/-- The single failure kind raised by `validate`: it carries the printed
form of the expected spec and the printed form of the spec inferred from
the value. -/
structure ValidationError where
  expectedTitle : String
  actualTitle : String
deriving DecidableEq

/-- The message `ValidationError.__init__` passes to `Exception`. -/
def errMessage (e : ValidationError) : String :=
  "Expected value of type `" ++ e.expectedTitle ++ "`, got `" ++ e.actualTitle ++ "`"

/-- `validate(value, expected_type)`: raise `ValidationError` with the outer
expected title and the actual inferred title if the value does not match. -/
def validate (v : Value) (t : TypeSpec) : Except ValidationError Unit :=
  let expectedTitle := pretty t
  if matchesVal v t then Except.ok ()
  else Except.error ⟨expectedTitle, pretty (infer v)⟩

/-! ### Plain-combinator characterizations of the matcher -/

/-- Whether a spec is the `Any` object. -/
def isAnySpec : TypeSpec → Bool
  | .any => true
  | _ => false

theorem matchesVal_def (v : Value) (t : TypeSpec) :
    matchesVal v t = (isAnySpec t || matchesCore v t) := by
  cases t <;> rw [matchesVal] <;> simp [isAnySpec, matchesCore]

theorem matchesCore_union (v : Value) (opts : List TypeSpec) :
    matchesCore v (.union opts) = opts.any fun o => matchesVal v o := by
  rw [matchesCore]
  simp [List.any_eq]

theorem matchesCore_listOf (xs : List Value) (e : TypeSpec) :
    matchesCore (.list xs) (.listOf e) = xs.all fun x => matchesVal x e := by
  rw [matchesCore]
  simp [List.all_eq]

theorem matchesCore_tupleVar (xs : List Value) (e : TypeSpec) :
    matchesCore (.tuple xs) (.tupleVar e) = xs.all fun x => matchesVal x e := by
  rw [matchesCore]
  simp [List.all_eq]

theorem matchesCore_dictOf (es : List (Value × Value)) (kt vt : TypeSpec) :
    matchesCore (.dict es) (.dictOf kt vt) =
      es.all fun e => matchesVal e.1 kt && matchesVal e.2 vt := by
  rw [matchesCore]
  simp [List.all_eq]

theorem matchesCore_tupleFixed (xs : List Value) (es : List TypeSpec) :
    matchesCore (.tuple xs) (.tupleFixed es) =
      if es.isEmpty then true
      else decide (xs.length = es.length) && listMatches xs es := by
  rw [matchesCore]

theorem matchesFields_eq (fs : List (String × TypeSpec × Value))
    (anns : List (String × TypeSpec)) (bound : List (String × TypeSpec)) :
    matchesFields fs anns bound = anns.all fun a =>
      match fieldLookup fs a.1 with
      | some w => matchesVal w (if bound.isEmpty then a.2 else substTV a.2 bound)
      | none => false := by
  rw [matchesFields]
  simp only [List.all_eq, List.mem_attach, true_implies, Subtype.forall]
  rw [decide_eq_decide]
  constructor <;>
    (intro h a hab
     have h2 := h a hab
     revert h2
     cases hfl : fieldLookup fs a.1 <;> simp)

theorem matchesCore_typedDict (es : List (Value × Value)) (name : String)
    (ann : List (String × TypeSpec)) (req : List String) :
    matchesCore (.dict es) (.typedDict name ann req) =
      ((req.all fun k => es.any fun e => keyEqStr e.1 k) &&
        ((es.all fun e => ann.any fun a => keyEqStr e.1 a.1) &&
          (ann.all fun a =>
            match tdLookup es a.1 with
            | some w => matchesVal w a.2
            | none => !(req.contains a.1)))) := by
  rw [matchesCore]
  congr 1
  congr 1
  simp only [List.all_eq, List.mem_attach, true_implies, Subtype.forall]
  rw [decide_eq_decide]
  constructor <;>
    (intro h a hab
     have h2 := h a hab
     revert h2
     cases hfl : tdLookup es a.1 <;> simp)


/-! ### Character-level view of the printer, for injectivity reasoning -/

mutual
/-- The character list underlying `pretty`. -/
def prettyL : TypeSpec → List Char
  | .alias n _ => n.data
  | .any => ['t', 'y', 'p', 'i', 'n', 'g', '.', 'A', 'n', 'y']
  | .clsBool => ['b', 'o', 'o', 'l']
  | .clsInt => ['i', 'n', 't']
  | .clsStr => ['s', 't', 'r']
  | .union opts => unionL opts
  | .lit vals =>
      ['L', 'i', 't', 'e', 'r', 'a', 'l', '['] ++
        ((joinSep "," (vals.map pyReprLit)).data ++ [']'])
  | .listOf e => ['l', 'i', 's', 't', '['] ++ (prettyL e ++ [']'])
  | .dictOf k v => ['d', 'i', 'c', 't', '['] ++ (prettyL k ++ ',' :: (prettyL v ++ [']']))
  | .tupleFixed es => ['t', 'u', 'p', 'l', 'e', '['] ++ (argsL es ++ [']'])
  | .tupleVar e =>
      ['t', 'u', 'p', 'l', 'e', '['] ++ (prettyL e ++ [',', '.', '.', '.', ']'])
  | .dataCls n _ _ => n.data
  | .typedDict n _ _ => n.data
  | .genericAlias n _ _ args => n.data ++ '[' :: (argsL args ++ [']'])
  | .typeVar n => '~' :: n.data

/-- Characters of `" | ".join` of printed options. -/
def unionL : List TypeSpec → List Char
  | [] => []
  | [x] => prettyL x
  | x :: xs => prettyL x ++ ' ' :: '|' :: ' ' :: unionL xs

/-- Characters of `",".join` of printed argument specs. -/
def argsL : List TypeSpec → List Char
  | [] => []
  | [x] => prettyL x
  | x :: xs => prettyL x ++ ',' :: argsL xs
end

theorem strData (a b : String) : (a ++ b).data = a.data ++ b.data := rfl

theorem pretty_data_bundle :
    ∀ N : Nat,
      (∀ t : TypeSpec, sizeOf t ≤ N → (pretty t).data = prettyL t) ∧
      (∀ ts : List TypeSpec, sizeOf ts ≤ N →
        (prettyList " | " ts).data = unionL ts ∧ (prettyList "," ts).data = argsL ts) := by
  intro N
  induction N using Nat.strong_induction_on with
  | _ N IH =>
    constructor
    · intro t ht
      match t with
      | .alias n u => rfl
      | .any => decide
      | .clsBool => decide
      | .clsInt => decide
      | .clsStr => decide
      | .union opts =>
          show (prettyList " | " opts).data = unionL opts
          simp only [TypeSpec.union.sizeOf_spec] at ht
          exact ((IH (sizeOf opts) (by omega)).2 opts le_rfl).1
      | .lit vals => rfl
      | .listOf e =>
          show ("list[" ++ pretty e ++ "]").data = ['l', 'i', 's', 't', '['] ++ (prettyL e ++ [']'])
          simp only [TypeSpec.listOf.sizeOf_spec] at ht
          have hb := (IH (sizeOf e) (by omega)).1 e le_rfl
          rw [strData, strData, hb]
          simp
      | .dictOf k v =>
          show ("dict[" ++ pretty k ++ "," ++ pretty v ++ "]").data =
            ['d', 'i', 'c', 't', '['] ++ (prettyL k ++ ',' :: (prettyL v ++ [']']))
          simp only [TypeSpec.dictOf.sizeOf_spec] at ht
          have hk := (IH (sizeOf k) (by omega)).1 k le_rfl
          have hv := (IH (sizeOf v) (by omega)).1 v le_rfl
          rw [strData, strData, strData, strData, hk, hv]
          simp
      | .tupleFixed es =>
          show ("tuple[" ++ prettyList "," es ++ "]").data =
            ['t', 'u', 'p', 'l', 'e', '['] ++ (argsL es ++ [']'])
          simp only [TypeSpec.tupleFixed.sizeOf_spec] at ht
          have hargs := ((IH (sizeOf es) (by omega)).2 es le_rfl).2
          rw [strData, strData, hargs]
          simp
      | .tupleVar e =>
          show ("tuple[" ++ pretty e ++ ",...]").data =
            ['t', 'u', 'p', 'l', 'e', '['] ++ (prettyL e ++ [',', '.', '.', '.', ']'])
          simp only [TypeSpec.tupleVar.sizeOf_spec] at ht
          have hb := (IH (sizeOf e) (by omega)).1 e le_rfl
          rw [strData, strData, hb]
          simp
      | .dataCls n p f => rfl
      | .typedDict n a r => rfl
      | .genericAlias n p f args =>
          show (n ++ "[" ++ prettyList "," args ++ "]").data =
            n.data ++ '[' :: (argsL args ++ [']'])
          simp only [TypeSpec.genericAlias.sizeOf_spec] at ht
          have hargs := ((IH (sizeOf args) (by omega)).2 args le_rfl).2
          rw [strData, strData, strData, hargs]
          simp
      | .typeVar n => rfl
    · intro ts hts
      match ts with
      | [] => constructor <;> rfl
      | [x] =>
          simp only [List.cons.sizeOf_spec, List.nil.sizeOf_spec] at hts
          have hx := (IH (sizeOf x) (by omega)).1 x le_rfl
          exact ⟨hx, hx⟩
      | x :: y :: ys =>
          simp only [List.cons.sizeOf_spec] at hts
          have hx := (IH (sizeOf x) (by omega)).1 x le_rfl
          have htail := (IH (sizeOf (y :: ys)) (by simp; omega)).2 (y :: ys) le_rfl
          constructor
          · show (pretty x ++ " | " ++ prettyList " | " (y :: ys)).data =
              prettyL x ++ ' ' :: '|' :: ' ' :: unionL (y :: ys)
            rw [strData, strData, hx, htail.1]
            simp
          · show (pretty x ++ "," ++ prettyList "," (y :: ys)).data =
              prettyL x ++ ',' :: argsL (y :: ys)
            rw [strData, strData, hx, htail.2]
            simp

theorem pretty_data (t : TypeSpec) : (pretty t).data = prettyL t :=
  (pretty_data_bundle (sizeOf t)).1 t le_rfl

/-! ### The fragment of specs produced by inference on plain values -/

mutual
/-- Specs that inference produces at non-unionized positions on values
without dataclass instances. -/
inductive Frag : TypeSpec → Prop where
  | fAny : Frag .any
  | fBool : Frag .clsBool
  | fInt : Frag .clsInt
  | fStr : Frag .clsStr
  | fList : ∀ u, FragU u → Frag (.listOf u)
  | fDict : ∀ k v, FragU k → FragU v → Frag (.dictOf k v)
  | fTuple : ∀ ts, (∀ t ∈ ts, Frag t) → Frag (.tupleFixed ts)

/-- Specs that inference produces at unionized positions: a fragment spec,
or a union of at least two fragment specs. -/
inductive FragU : TypeSpec → Prop where
  | base : ∀ t, Frag t → FragU t
  | uni : ∀ opts, 2 ≤ opts.length → (∀ t ∈ opts, Frag t) → FragU (.union opts)
end

/-- `" | "` is a prefix of the character list. -/
def SepPre (r : List Char) : Prop := ∃ r0, r = ' ' :: '|' :: ' ' :: r0

theorem sepPre_cons {c : Char} {r : List Char} (h : c ≠ ' ') : ¬SepPre (c :: r) := by
  rintro ⟨r0, hr⟩
  cases hr
  exact h rfl

theorem sepPre_nil : ¬SepPre ([] : List Char) := by rintro ⟨r0, hr⟩; cases hr

/-- Every fragment spec prints as a nonempty string starting with a letter
that is not a separator or bracket character. -/
theorem fragHead {t : TypeSpec} (h : Frag t) :
    ∃ c cs, prettyL t = c :: cs ∧ c ≠ ']' ∧ c ≠ ',' ∧ c ≠ ' ' := by
  cases h with
  | fAny => exact ⟨'t', _, rfl, by decide, by decide, by decide⟩
  | fBool => exact ⟨'b', _, rfl, by decide, by decide, by decide⟩
  | fInt => exact ⟨'i', _, rfl, by decide, by decide, by decide⟩
  | fStr => exact ⟨'s', _, rfl, by decide, by decide, by decide⟩
  | fList u hu => exact ⟨'l', _, rfl, by decide, by decide, by decide⟩
  | fDict k v hk hv => exact ⟨'d', _, rfl, by decide, by decide, by decide⟩
  | fTuple ts hts => exact ⟨'t', _, rfl, by decide, by decide, by decide⟩

theorem two_le_shape {A : Type} {l : List A} (h : 2 ≤ l.length) :
    ∃ a b cs, l = a :: b :: cs := by
  match l with
  | [] => simp at h
  | [a] => simp at h
  | a :: b :: cs => exact ⟨a, b, cs, rfl⟩

/-- Prefix-unambiguity of fragment printing. -/
def UP1 (N : Nat) : Prop :=
  ∀ s s' : TypeSpec, sizeOf s + sizeOf s' ≤ N → Frag s → Frag s' →
    ∀ r r' : List Char, prettyL s ++ r = prettyL s' ++ r' → s = s' ∧ r = r'

/-- Prefix-unambiguity of comma-joined fragment argument lists up to `]`. -/
def UP3 (N : Nat) : Prop :=
  ∀ ss ts : List TypeSpec, sizeOf ss + sizeOf ts ≤ N →
    (∀ x ∈ ss, Frag x) → (∀ x ∈ ts, Frag x) →
    ∀ r r' : List Char, argsL ss ++ ']' :: r = argsL ts ++ ']' :: r' → ss = ts ∧ r = r'

/-- Prefix-unambiguity of pipe-joined nonempty fragment option lists, when
the remainders do not start with the separator. -/
def UP4 (N : Nat) : Prop :=
  ∀ ss ts : List TypeSpec, sizeOf ss + sizeOf ts ≤ N →
    (∀ x ∈ ss, Frag x) → (∀ x ∈ ts, Frag x) → ss ≠ [] → ts ≠ [] →
    ∀ r r' : List Char, ¬SepPre r → ¬SepPre r' →
      unionL ss ++ r = unionL ts ++ r' → ss = ts ∧ r = r'

/-- Prefix-unambiguity of unionized-fragment printing, when the remainders
do not start with the separator. -/
def UP2 (N : Nat) : Prop :=
  ∀ s s' : TypeSpec, sizeOf s + sizeOf s' ≤ N → FragU s → FragU s' →
    ∀ r r' : List Char, ¬SepPre r → ¬SepPre r' →
      prettyL s ++ r = prettyL s' ++ r' → s = s' ∧ r = r'

theorem uniqBundle : ∀ N : Nat, UP1 N ∧ UP3 N ∧ UP4 N ∧ UP2 N := by
  intro N
  induction N using Nat.strong_induction_on with
  | _ N IH =>
    have h1 : UP1 N := by
      intro s s' hsz hf hf' r r' h
      cases hf <;> cases hf'
      case fAny.fAny => exact ⟨rfl, by simpa [prettyL] using h⟩
      case fBool.fBool => exact ⟨rfl, by simpa [prettyL] using h⟩
      case fInt.fInt => exact ⟨rfl, by simpa [prettyL] using h⟩
      case fStr.fStr => exact ⟨rfl, by simpa [prettyL] using h⟩
      case fList.fList =>
        rename_i u hu u' hu'
        simp only [TypeSpec.listOf.sizeOf_spec] at hsz
        simp only [prettyL, List.cons_append, List.append_assoc, List.singleton_append,
          List.cons.injEq, true_and] at h
        obtain ⟨hequ, hrest⟩ :=
          (IH (sizeOf u + sizeOf u') (by omega)).2.2.2 u u' le_rfl hu hu' _ _
            (sepPre_cons (by decide)) (sepPre_cons (by decide)) h
        injection hrest with _ hr
        exact ⟨by rw [hequ], hr⟩
      case fDict.fDict =>
        rename_i k v hk hv k' v' hk' hv'
        simp only [TypeSpec.dictOf.sizeOf_spec] at hsz
        simp only [prettyL, List.cons_append, List.append_assoc, List.singleton_append,
          List.cons.injEq, true_and] at h
        obtain ⟨heqk, hrest⟩ :=
          (IH (sizeOf k + sizeOf k') (by omega)).2.2.2 k k' le_rfl hk hk' _ _
            (sepPre_cons (by decide)) (sepPre_cons (by decide)) h
        injection hrest with _ hr
        obtain ⟨heqv, hrest2⟩ :=
          (IH (sizeOf v + sizeOf v') (by omega)).2.2.2 v v' le_rfl hv hv' _ _
            (sepPre_cons (by decide)) (sepPre_cons (by decide)) hr
        injection hrest2 with _ hr2
        exact ⟨by rw [heqk, heqv], hr2⟩
      case fTuple.fTuple =>
        rename_i ts hts ts' hts'
        simp only [TypeSpec.tupleFixed.sizeOf_spec] at hsz
        simp only [prettyL, List.cons_append, List.append_assoc, List.singleton_append,
          List.cons.injEq, true_and] at h
        obtain ⟨heq, hr⟩ :=
          (IH (sizeOf ts + sizeOf ts') (by omega)).2.1 ts ts' le_rfl hts hts' _ _ h
        exact ⟨by rw [heq], hr⟩
      all_goals exact absurd h (by simp [prettyL])
    have h3 : UP3 N := by
      intro ss ts hsz hfs hfts r r' h
      match ss, ts with
      | [], [] =>
          simp only [argsL, List.nil_append] at h
          injection h with _ hr
          exact ⟨rfl, hr⟩
      | [], y :: ys =>
          exfalso
          obtain ⟨c, cs, hpc, hc1, hc2, hc3⟩ := fragHead (hfts y (by simp))
          cases ys <;>
            (simp only [argsL, List.nil_append, List.cons_append, List.append_assoc] at h
             rw [hpc] at h
             simp at h
             exact hc1 h.1.symm)
      | x :: xs, [] =>
          exfalso
          obtain ⟨c, cs, hpc, hc1, hc2, hc3⟩ := fragHead (hfs x (by simp))
          cases xs <;>
            (simp only [argsL, List.nil_append, List.cons_append, List.append_assoc] at h
             rw [hpc] at h
             simp at h
             exact hc1 h.1)
      | [x], [y] =>
          simp only [List.cons.sizeOf_spec, List.nil.sizeOf_spec] at hsz
          simp only [argsL] at h
          obtain ⟨hxy, hr⟩ :=
            (IH (sizeOf x + sizeOf y) (by omega)).1 x y le_rfl
              (hfs x (by simp)) (hfts y (by simp)) _ _ h
          injection hr with _ hr2
          exact ⟨by rw [hxy], hr2⟩
      | [x], y :: z :: zs =>
          exfalso
          simp only [List.cons.sizeOf_spec, List.nil.sizeOf_spec] at hsz
          simp only [argsL, List.cons_append, List.append_assoc, List.nil_append] at h
          obtain ⟨hxy, hr⟩ :=
            (IH (sizeOf x + sizeOf y) (by omega)).1 x y le_rfl
              (hfs x (by simp)) (hfts y (by simp)) _ _ h
          injection hr with hc _
          exact absurd hc (by decide)
      | x :: x2 :: xs, [y] =>
          exfalso
          simp only [List.cons.sizeOf_spec, List.nil.sizeOf_spec] at hsz
          simp only [argsL, List.cons_append, List.append_assoc, List.nil_append] at h
          obtain ⟨hxy, hr⟩ :=
            (IH (sizeOf x + sizeOf y) (by omega)).1 x y le_rfl
              (hfs x (by simp)) (hfts y (by simp)) _ _ h
          injection hr with hc _
          exact absurd hc (by decide)
      | x :: x2 :: xs, y :: z :: zs =>
          simp only [List.cons.sizeOf_spec] at hsz
          simp only [argsL, List.cons_append, List.append_assoc, List.nil_append] at h
          obtain ⟨hxy, hr⟩ :=
            (IH (sizeOf x + sizeOf y) (by omega)).1 x y le_rfl
              (hfs x (by simp)) (hfts y (by simp)) _ _ h
          injection hr with _ hr2
          obtain ⟨htail, hrr⟩ :=
            (IH (sizeOf (x2 :: xs) + sizeOf (z :: zs)) (by simp; omega)).2.1
              (x2 :: xs) (z :: zs) le_rfl
              (fun a ha => hfs a (List.mem_cons_of_mem x ha))
              (fun a ha => hfts a (List.mem_cons_of_mem y ha)) _ _ hr2
          refine ⟨?_, hrr⟩
          rw [hxy, htail]
    have h4 : UP4 N := by
      intro ss ts hsz hfs hfts hne hne' r r' hsr hsr' h
      match ss, ts with
      | [], _ => exact absurd rfl hne
      | x :: xs, [] => exact absurd rfl hne'
      | [x], [y] =>
          simp only [List.cons.sizeOf_spec, List.nil.sizeOf_spec] at hsz
          simp only [unionL] at h
          obtain ⟨hxy, hr⟩ :=
            (IH (sizeOf x + sizeOf y) (by omega)).1 x y le_rfl
              (hfs x (by simp)) (hfts y (by simp)) _ _ h
          exact ⟨by rw [hxy], hr⟩
      | [x], y :: z :: zs =>
          exfalso
          simp only [List.cons.sizeOf_spec, List.nil.sizeOf_spec] at hsz
          simp only [unionL, List.cons_append, List.append_assoc, List.nil_append] at h
          obtain ⟨hxy, hr⟩ :=
            (IH (sizeOf x + sizeOf y) (by omega)).1 x y le_rfl
              (hfs x (by simp)) (hfts y (by simp)) _ _ h
          exact hsr ⟨_, hr⟩
      | x :: x2 :: xs, [y] =>
          exfalso
          simp only [List.cons.sizeOf_spec, List.nil.sizeOf_spec] at hsz
          simp only [unionL, List.cons_append, List.append_assoc, List.nil_append] at h
          obtain ⟨hxy, hr⟩ :=
            (IH (sizeOf x + sizeOf y) (by omega)).1 x y le_rfl
              (hfs x (by simp)) (hfts y (by simp)) _ _ h
          exact hsr' ⟨_, hr.symm⟩
      | x :: x2 :: xs, y :: z :: zs =>
          simp only [List.cons.sizeOf_spec] at hsz
          simp only [unionL, List.cons_append, List.append_assoc, List.nil_append] at h
          obtain ⟨hxy, hr⟩ :=
            (IH (sizeOf x + sizeOf y) (by omega)).1 x y le_rfl
              (hfs x (by simp)) (hfts y (by simp)) _ _ h
          injection hr with _ hr2
          injection hr2 with _ hr3
          injection hr3 with _ hr4
          obtain ⟨htail, hrr⟩ :=
            (IH (sizeOf (x2 :: xs) + sizeOf (z :: zs)) (by simp; omega)).2.2.1
              (x2 :: xs) (z :: zs) le_rfl
              (fun a ha => hfs a (List.mem_cons_of_mem x ha))
              (fun a ha => hfts a (List.mem_cons_of_mem y ha))
              (by simp) (by simp) _ _ hsr hsr' hr4
          refine ⟨?_, hrr⟩
          rw [hxy, htail]
    have h2 : UP2 N := by
      intro s s' hsz hfu hfu' r r' hsr hsr' h
      cases hfu with
      | base s hf =>
          cases hfu' with
          | base s' hf' => exact h1 s s' hsz hf hf' r r' h
          | uni opts' hlen hall =>
              exfalso
              obtain ⟨a, b, cs, rfl⟩ := two_le_shape hlen
              have ha : Frag a := hall a (by simp)
              have hsa : sizeOf a < sizeOf (TypeSpec.union (a :: b :: cs)) := by
                simp <;> omega
              simp only [prettyL, unionL, List.cons_append, List.append_assoc,
                List.nil_append] at h
              obtain ⟨hxy, hr⟩ := h1 s a (by omega) hf ha _ _ h
              exact hsr ⟨_, hr⟩
      | uni opts hlen hall =>
          cases hfu' with
          | base s' hf' =>
              exfalso
              obtain ⟨a, b, cs, rfl⟩ := two_le_shape hlen
              have ha : Frag a := hall a (by simp)
              have hsa : sizeOf a < sizeOf (TypeSpec.union (a :: b :: cs)) := by
                simp <;> omega
              simp only [prettyL, unionL, List.cons_append, List.append_assoc,
                List.nil_append] at h
              obtain ⟨hxy, hr⟩ := h1 a s' (by omega) ha hf' _ _ h
              exact hsr' ⟨_, hr.symm⟩
          | uni opts' hlen' hall' =>
              have hso : sizeOf opts < sizeOf (TypeSpec.union opts) := by simp <;> omega
              have hso' : sizeOf opts' < sizeOf (TypeSpec.union opts') := by simp <;> omega
              simp only [prettyL] at h
              obtain ⟨heq, hrr⟩ :=
                h4 opts opts' (by omega) hall hall'
                  (by rintro rfl; simp at hlen) (by rintro rfl; simp at hlen')
                  _ _ hsr hsr' h
              exact ⟨by rw [heq], hrr⟩
    exact ⟨h1, h3, h4, h2⟩

/-- On the inference fragment, the printer is injective. -/
theorem prettyFragInj {s t : TypeSpec} (hs : Frag s) (ht : Frag t)
    (h : pretty s = pretty t) : s = t := by
  have hd : prettyL s ++ ([] : List Char) = prettyL t ++ [] := by
    rw [List.append_nil, List.append_nil, ← pretty_data, ← pretty_data, h]
  exact ((uniqBundle (sizeOf s + sizeOf t)).1 s t le_rfl hs ht [] [] hd).1

/-! ### Properties of deduplication by printed form -/

theorem dedupPrettyAux_subset (seen : List String) (ts : List TypeSpec) :
    ∀ x ∈ dedupPrettyAux seen ts, x ∈ ts := by
  induction ts generalizing seen with
  | nil => simp [dedupPrettyAux]
  | cons t ts ih =>
      intro x hx
      rw [dedupPrettyAux] at hx
      split at hx
      · exact List.mem_cons_of_mem t (ih seen x hx)
      · rcases List.mem_cons.1 hx with h | h
        · simp [h]
        · exact List.mem_cons_of_mem t (ih _ x h)

theorem dedupPrettyAux_cover (seen : List String) (ts : List TypeSpec) :
    ∀ t ∈ ts, ¬seen.contains (pretty t) →
      ∃ t' ∈ dedupPrettyAux seen ts, pretty t' = pretty t := by
  induction ts generalizing seen with
  | nil => simp
  | cons u ts ih =>
      intro t ht hseen
      rw [dedupPrettyAux]
      rcases List.mem_cons.1 ht with rfl | ht2
      · split
        · next hc =>
            exact absurd hc hseen
        · exact ⟨t, by simp⟩
      · by_cases hc : seen.contains (pretty u)
        · rw [if_pos hc]
          exact ih seen t ht2 hseen
        · rw [if_neg hc]
          by_cases hsame : pretty u = pretty t
          · exact ⟨u, by simp, hsame⟩
          · have hseen2 : ¬(pretty u :: seen).contains (pretty t) := by
              intro hcon
              simp only [List.contains_cons, Bool.or_eq_true, beq_iff_eq] at hcon
              rcases hcon with h | h
              · exact hsame h.symm
              · exact hseen h
            obtain ⟨t', ht', hp⟩ := ih (pretty u :: seen) t ht2 hseen2
            exact ⟨t', List.mem_cons_of_mem u ht', hp⟩

/-- Membership is preserved by print-form deduplication on fragment lists:
two fragment specs with the same printed form are equal, so the kept
representative of each element is the element itself. -/
theorem mem_dedupPretty {ts : List TypeSpec} (hall : ∀ x ∈ ts, Frag x)
    {t : TypeSpec} (ht : t ∈ ts) : t ∈ dedupPretty ts := by
  obtain ⟨t', ht', hp⟩ := dedupPrettyAux_cover [] ts t ht (by simp)
  have ht'' : t' ∈ ts := dedupPrettyAux_subset [] ts t' ht'
  have : t' = t := prettyFragInj (hall t' ht'') (hall t ht) hp
  rw [← this]
  exact ht'

/-! ### Properties of runtime union construction -/

/-- Specs that are not union objects. -/
def nonUnion : TypeSpec → Bool
  | .union _ => false
  | _ => true

theorem anyRightPyEq_iff (x : TypeSpec) (ys : List TypeSpec) :
    anyRightPyEq x ys = true ↔ ∃ y ∈ ys, pyEqSpec x y = true := by
  induction ys with
  | nil => simp [anyRightPyEq]
  | cons y ys ih => rw [anyRightPyEq]; simp [ih]

theorem anyLeftPyEq_iff (xs : List TypeSpec) (y : TypeSpec) :
    anyLeftPyEq xs y = true ↔ ∃ x ∈ xs, pyEqSpec x y = true := by
  induction xs with
  | nil => simp [anyLeftPyEq]
  | cons x xs ih => rw [anyLeftPyEq]; simp [ih]

theorem subPyEq_iff (xs ys : List TypeSpec) :
    subPyEq xs ys = true ↔ ∀ x ∈ xs, ∃ y ∈ ys, pyEqSpec x y = true := by
  induction xs with
  | nil => simp [subPyEq]
  | cons x xs ih => rw [subPyEq]; simp [ih, anyRightPyEq_iff]

theorem supPyEq_iff (xs ys : List TypeSpec) :
    supPyEq xs ys = true ↔ ∀ y ∈ ys, ∃ x ∈ xs, pyEqSpec x y = true := by
  induction ys with
  | nil => simp [supPyEq]
  | cons y ys ih => rw [supPyEq]; simp [ih, anyLeftPyEq_iff]

theorem specEqRefl_bundle :
    ∀ N : Nat,
      (∀ t : TypeSpec, sizeOf t ≤ N → specEq t t = true) ∧
      (∀ ts : List TypeSpec, sizeOf ts ≤ N → listSpecEq ts ts = true) ∧
      (∀ fs : List (String × TypeSpec), sizeOf fs ≤ N → fieldsEq fs fs = true) := by
  intro N
  induction N using Nat.strong_induction_on with
  | _ N IH =>
    refine ⟨?_, ?_, ?_⟩
    · intro t ht
      match t with
      | .any => rfl
      | .clsBool => rfl
      | .clsInt => rfl
      | .clsStr => rfl
      | .union xs =>
          rw [specEq]
          simp only [TypeSpec.union.sizeOf_spec] at ht
          exact (IH (sizeOf xs) (by omega)).2.1 xs le_rfl
      | .lit xs => rw [specEq]; simp
      | .listOf a =>
          rw [specEq]
          simp only [TypeSpec.listOf.sizeOf_spec] at ht
          exact (IH (sizeOf a) (by omega)).1 a le_rfl
      | .dictOf k v =>
          rw [specEq]
          simp only [TypeSpec.dictOf.sizeOf_spec] at ht
          rw [(IH (sizeOf k) (by omega)).1 k le_rfl, (IH (sizeOf v) (by omega)).1 v le_rfl]
          rfl
      | .tupleFixed xs =>
          rw [specEq]
          simp only [TypeSpec.tupleFixed.sizeOf_spec] at ht
          exact (IH (sizeOf xs) (by omega)).2.1 xs le_rfl
      | .tupleVar a =>
          rw [specEq]
          simp only [TypeSpec.tupleVar.sizeOf_spec] at ht
          exact (IH (sizeOf a) (by omega)).1 a le_rfl
      | .dataCls n p f =>
          rw [specEq]
          simp only [TypeSpec.dataCls.sizeOf_spec] at ht
          rw [(IH (sizeOf f) (by omega)).2.2 f le_rfl]
          simp
      | .typedDict n a r =>
          rw [specEq]
          simp only [TypeSpec.typedDict.sizeOf_spec] at ht
          rw [(IH (sizeOf a) (by omega)).2.2 a le_rfl]
          simp
      | .genericAlias n p f as =>
          rw [specEq]
          simp only [TypeSpec.genericAlias.sizeOf_spec] at ht
          rw [(IH (sizeOf f) (by omega)).2.2 f le_rfl,
            (IH (sizeOf as) (by omega)).2.1 as le_rfl]
          simp
      | .typeVar a => rw [specEq]; simp
      | .alias n u =>
          rw [specEq]
          simp only [TypeSpec.alias.sizeOf_spec] at ht
          rw [(IH (sizeOf u) (by omega)).1 u le_rfl]
          simp
    · intro ts hts
      match ts with
      | [] => rfl
      | x :: xs =>
          rw [listSpecEq]
          simp only [List.cons.sizeOf_spec] at hts
          rw [(IH (sizeOf x) (by omega)).1 x le_rfl,
            (IH (sizeOf xs) (by omega)).2.1 xs le_rfl]
          rfl
    · intro fs hfs
      match fs with
      | [] => rfl
      | (a, s) :: xs =>
          rw [fieldsEq]
          simp only [List.cons.sizeOf_spec, Prod.mk.sizeOf_spec] at hfs
          rw [(IH (sizeOf s) (by omega)).1 s le_rfl,
            (IH (sizeOf xs) (by omega)).2.2 xs le_rfl]
          simp

theorem specEqRefl (t : TypeSpec) : specEq t t = true :=
  (specEqRefl_bundle (sizeOf t)).1 t le_rfl

theorem pyEqRefl_bundle :
    ∀ N : Nat,
      (∀ t : TypeSpec, sizeOf t ≤ N → pyEqSpec t t = true) ∧
      (∀ ts : List TypeSpec, sizeOf ts ≤ N → listPyEq ts ts = true) := by
  intro N
  induction N using Nat.strong_induction_on with
  | _ N IH =>
    constructor
    · intro t ht
      match t with
      | .union xs =>
          rw [pyEqSpec]
          simp only [TypeSpec.union.sizeOf_spec] at ht
          have hx : ∀ x ∈ xs, pyEqSpec x x = true := by
            intro x hx
            have := List.sizeOf_lt_of_mem hx
            exact (IH (sizeOf x) (by omega)).1 x le_rfl
          rw [Bool.and_eq_true, subPyEq_iff, supPyEq_iff]
          exact ⟨fun x hmem => ⟨x, hmem, hx x hmem⟩, fun x hmem => ⟨x, hmem, hx x hmem⟩⟩
      | .lit xs => rw [pyEqSpec]; simp [List.all_eq]
      | .listOf a =>
          rw [pyEqSpec]
          simp only [TypeSpec.listOf.sizeOf_spec] at ht
          exact (IH (sizeOf a) (by omega)).1 a le_rfl
      | .dictOf k v =>
          rw [pyEqSpec]
          simp only [TypeSpec.dictOf.sizeOf_spec] at ht
          rw [(IH (sizeOf k) (by omega)).1 k le_rfl, (IH (sizeOf v) (by omega)).1 v le_rfl]
          rfl
      | .tupleFixed xs =>
          rw [pyEqSpec]
          simp only [TypeSpec.tupleFixed.sizeOf_spec] at ht
          exact (IH (sizeOf xs) (by omega)).2 xs le_rfl
      | .tupleVar a =>
          rw [pyEqSpec]
          simp only [TypeSpec.tupleVar.sizeOf_spec] at ht
          exact (IH (sizeOf a) (by omega)).1 a le_rfl
      | .genericAlias n p f as =>
          rw [pyEqSpec]
          simp only [TypeSpec.genericAlias.sizeOf_spec] at ht
          rw [(specEqRefl_bundle (sizeOf f)).2.2 f le_rfl,
            (IH (sizeOf as) (by omega)).2 as le_rfl]
          simp
      | .any => rw [pyEqSpec] <;> first | exact specEqRefl _ | simp
      | .clsBool => rw [pyEqSpec] <;> first | exact specEqRefl _ | simp
      | .clsInt => rw [pyEqSpec] <;> first | exact specEqRefl _ | simp
      | .clsStr => rw [pyEqSpec] <;> first | exact specEqRefl _ | simp
      | .dataCls n p f => rw [pyEqSpec] <;> first | exact specEqRefl _ | simp
      | .typedDict n a r => rw [pyEqSpec] <;> first | exact specEqRefl _ | simp
      | .typeVar a => rw [pyEqSpec] <;> first | exact specEqRefl _ | simp
      | .alias n u => rw [pyEqSpec] <;> first | exact specEqRefl _ | simp
    · intro ts hts
      match ts with
      | [] => rw [listPyEq]
      | x :: xs =>
          rw [listPyEq]
          simp only [List.cons.sizeOf_spec] at hts
          rw [(IH (sizeOf x) (by omega)).1 x le_rfl, (IH (sizeOf xs) (by omega)).2 xs le_rfl]
          rfl

theorem pyEqRefl (t : TypeSpec) : pyEqSpec t t = true :=
  (pyEqRefl_bundle (sizeOf t)).1 t le_rfl

theorem matchesVal_nonAny (v : Value) (t : TypeSpec) (h : isAnySpec t = false) :
    matchesVal v t = matchesCore v t := by
  rw [matchesVal_def, h]
  simp

theorem matchesVal_union (v : Value) (opts : List TypeSpec) :
    matchesVal v (.union opts) = opts.any fun o => matchesVal v o := by
  rw [matchesVal_nonAny v (.union opts) rfl, matchesCore_union]

theorem listPyEq_nil_cons (y : TypeSpec) (ys : List TypeSpec) :
    listPyEq [] (y :: ys) = false := by
  rw [listPyEq] <;> simp

theorem listPyEq_cons_nil (x : TypeSpec) (xs : List TypeSpec) :
    listPyEq (x :: xs) [] = false := by
  rw [listPyEq] <;> simp

theorem listPyEq_length {xs ys : List TypeSpec} (h : listPyEq xs ys = true) :
    xs.length = ys.length := by
  induction xs generalizing ys with
  | nil =>
      cases ys with
      | nil => rfl
      | cons y ys => rw [listPyEq_nil_cons] at h; cases h
  | cons x xs ih =>
      cases ys with
      | nil => rw [listPyEq_cons_nil] at h; cases h
      | cons y ys =>
          rw [listPyEq, Bool.and_eq_true] at h
          simp [ih h.2]

theorem listPyEq_cons {x y : TypeSpec} {xs ys : List TypeSpec}
    (h : listPyEq (x :: xs) (y :: ys) = true) :
    pyEqSpec x y = true ∧ listPyEq xs ys = true := by
  rw [listPyEq, Bool.and_eq_true] at h
  exact h

/-- Runtime-equal specs in the inference fragment accept the same values. -/
theorem pyEqMatches_bundle :
    ∀ N : Nat, ∀ s t : TypeSpec, sizeOf s + sizeOf t ≤ N → FragU s → FragU t →
      pyEqSpec s t = true → ∀ v : Value, matchesVal v s = matchesVal v t := by
  intro N
  induction N using Nat.strong_induction_on with
  | _ N IH =>
    intro s t hsz hfu hfu' hpe v
    cases hfu with
    | base s hf =>
        cases hfu' with
        | base t hf' =>
            cases hf <;> cases hf'
            case fAny.fAny => rfl
            case fBool.fBool => rfl
            case fInt.fInt => rfl
            case fStr.fStr => rfl
            case fList.fList =>
              rename_i u hu u' hu'
              rw [pyEqSpec] at hpe
              simp only [TypeSpec.listOf.sizeOf_spec] at hsz
              have hfun : (fun x => matchesVal x u) = (fun x => matchesVal x u') :=
                funext fun x => IH (sizeOf u + sizeOf u') (by omega) u u' le_rfl hu hu' hpe x
              rw [matchesVal_nonAny v (.listOf u) rfl, matchesVal_nonAny v (.listOf u') rfl]
              cases v
              case list xs => rw [matchesCore_listOf, matchesCore_listOf, hfun]
              all_goals simp [matchesCore]
            case fDict.fDict =>
              rename_i k vv hk hv k' v' hk' hv'
              rw [pyEqSpec, Bool.and_eq_true] at hpe
              simp only [TypeSpec.dictOf.sizeOf_spec] at hsz
              have hfk : ∀ x, matchesVal x k = matchesVal x k' :=
                fun x => IH (sizeOf k + sizeOf k') (by omega) k k' le_rfl hk hk' hpe.1 x
              have hfv : ∀ x, matchesVal x vv = matchesVal x v' :=
                fun x => IH (sizeOf vv + sizeOf v') (by omega) vv v' le_rfl hv hv' hpe.2 x
              have hfun2 : (fun (e : Value × Value) => matchesVal e.1 k && matchesVal e.2 vv) =
                  (fun e => matchesVal e.1 k' && matchesVal e.2 v') :=
                funext fun e => by rw [hfk, hfv]
              rw [matchesVal_nonAny v (.dictOf k vv) rfl, matchesVal_nonAny v (.dictOf k' v') rfl]
              cases v
              case dict es => rw [matchesCore_dictOf, matchesCore_dictOf, hfun2]
              all_goals simp [matchesCore]
            case fTuple.fTuple =>
              rename_i ts hts ts' hts'
              rw [pyEqSpec] at hpe
              simp only [TypeSpec.tupleFixed.sizeOf_spec] at hsz
              have hlen := listPyEq_length hpe
              have hlm : ∀ (as bs : List TypeSpec), (∀ x ∈ as, Frag x) → (∀ y ∈ bs, Frag y) →
                  (∀ x ∈ as, ∀ y ∈ bs, sizeOf x + sizeOf y < N) → listPyEq as bs = true →
                  ∀ xs : List Value, listMatches xs as = listMatches xs bs := by
                intro as
                induction as with
                | nil =>
                    intro bs _ _ _ hpe2 xs
                    cases bs with
                    | nil => rfl
                    | cons b bs => rw [listPyEq_nil_cons] at hpe2; cases hpe2
                | cons a as iha =>
                    intro bs hfa hfb hsz2 hpe2 xs
                    cases bs with
                    | nil => rw [listPyEq_cons_nil] at hpe2; cases hpe2
                    | cons b bs =>
                        obtain ⟨hab, htail⟩ := listPyEq_cons hpe2
                        cases xs with
                        | nil => rw [listMatches, listMatches]
                        | cons w ws =>
                            rw [listMatches, listMatches]
                            have hw := IH (sizeOf a + sizeOf b)
                              (hsz2 a (by simp) b (by simp)) a b le_rfl
                              (.base a (hfa a (by simp))) (.base b (hfb b (by simp))) hab w
                            rw [hw, iha bs (fun x hx => hfa x (by simp [hx]))
                              (fun y hy => hfb y (by simp [hy]))
                              (fun x hx y hy => hsz2 x (by simp [hx]) y (by simp [hy]))
                              htail ws]
              have hlm2 := hlm ts ts' hts hts'
                (fun x hx y hy => by
                  have h1 := List.sizeOf_lt_of_mem hx
                  have h2 := List.sizeOf_lt_of_mem hy
                  omega)
                hpe
              have hemp : ts.isEmpty = ts'.isEmpty := by
                cases ts <;> cases ts' <;> simp_all
              rw [matchesVal_nonAny v (.tupleFixed ts) rfl,
                matchesVal_nonAny v (.tupleFixed ts') rfl]
              cases v
              case tuple xs =>
                rw [matchesCore_tupleFixed, matchesCore_tupleFixed, hemp, hlen, hlm2]
              all_goals simp [matchesCore]
            all_goals (exfalso; revert hpe; simp [pyEqSpec, specEq])
        | uni opts' hlen' hall' =>
            exfalso
            revert hpe
            cases hf <;> simp [pyEqSpec, specEq]
    | uni opts hlen hall =>
        cases hfu' with
        | base t hf' =>
            exfalso
            revert hpe
            cases hf' <;> simp [pyEqSpec, specEq]
        | uni opts' hlen' hall' =>
            rw [pyEqSpec, Bool.and_eq_true, subPyEq_iff, supPyEq_iff] at hpe
            simp only [TypeSpec.union.sizeOf_spec] at hsz
            rw [matchesVal_union, matchesVal_union]
            have htrans : ∀ x ∈ opts, ∀ y ∈ opts', pyEqSpec x y = true →
                matchesVal v x = matchesVal v y := by
              intro x hx y hy hxy
              have h1 := List.sizeOf_lt_of_mem hx
              have h2 := List.sizeOf_lt_of_mem hy
              exact IH (sizeOf x + sizeOf y) (by omega) x y le_rfl
                (.base x (hall x hx)) (.base y (hall' y hy)) hxy v
            rw [Bool.eq_iff_iff]
            simp only [List.any_eq_true]
            constructor
            · rintro ⟨x, hx, hmx⟩
              obtain ⟨y, hy, hxy⟩ := hpe.1 x hx
              exact ⟨y, hy, by rw [← htrans x hx y hy hxy]; exact hmx⟩
            · rintro ⟨y, hy, hmy⟩
              obtain ⟨x, hx, hxy⟩ := hpe.2 y hy
              exact ⟨x, hx, by rw [htrans x hx y hy hxy]; exact hmy⟩

theorem pyEqMatches {s t : TypeSpec} (hs : FragU s) (ht : FragU t)
    (h : pyEqSpec s t = true) (v : Value) : matchesVal v s = matchesVal v t :=
  pyEqMatches_bundle (sizeOf s + sizeOf t) s t le_rfl hs ht h v

theorem frag_nonUnion {t : TypeSpec} (h : Frag t) : nonUnion t = true := by
  cases h <;> rfl

theorem optsList_nonUnion {t : TypeSpec} (h : nonUnion t = true) : optsList t = [t] := by
  cases t <;> first | rfl | (rw [nonUnion] at h; cases h)

theorem dedupPyEqAux_subset (kept : List TypeSpec) (xs : List TypeSpec) :
    ∀ x ∈ dedupPyEqAux kept xs, x ∈ xs := by
  induction xs generalizing kept with
  | nil => simp [dedupPyEqAux]
  | cons x xs ih =>
      intro y hy
      rw [dedupPyEqAux] at hy
      split at hy
      · exact List.mem_cons_of_mem x (ih kept y hy)
      · rcases List.mem_cons.1 hy with h | h
        · simp [h]
        · exact List.mem_cons_of_mem x (ih _ y h)

theorem dedupPyEqAux_cover (kept : List TypeSpec) (xs : List TypeSpec) :
    ∀ t ∈ xs, (kept.any fun u => pyEqSpec u t) = false →
      ∃ u ∈ dedupPyEqAux kept xs, pyEqSpec u t = true := by
  induction xs generalizing kept with
  | nil => simp
  | cons x xs ih =>
      intro t ht hkept
      rw [dedupPyEqAux]
      rcases List.mem_cons.1 ht with rfl | ht2
      · split
        · next hc => rw [hkept] at hc; cases hc
        · exact ⟨t, by simp, pyEqRefl t⟩
      · by_cases hc : (kept.any fun u => pyEqSpec u x) = true
        · rw [if_pos hc]
          exact ih kept t ht2 hkept
        · rw [if_neg hc]
          by_cases hxt : pyEqSpec x t = true
          · exact ⟨x, by simp, hxt⟩
          · have hkept2 : ((kept ++ [x]).any fun u => pyEqSpec u t) = false := by
              rw [List.any_append]
              simp only [Bool.or_eq_false_iff]
              exact ⟨hkept, by simp [hxt]⟩
            obtain ⟨u, hu, hput⟩ := ih (kept ++ [x]) t ht2 hkept2
            exact ⟨u, List.mem_cons_of_mem x hu, hput⟩

theorem dedupPyEqAux_nil_cons (x : TypeSpec) (xs : List TypeSpec) :
    dedupPyEqAux [] (x :: xs) = x :: dedupPyEqAux [x] xs := by
  rw [dedupPyEqAux]
  simp

/-- One step of the runtime union fold: the result is a well-shaped
unionized fragment whose options cover, up to runtime equality, the
previous options plus the new operand. -/
theorem pyOr_step {acc b : TypeSpec}
    (hfa : FragU acc) (hopts : ∀ u ∈ optsList acc, Frag u) (hb : Frag b) :
    FragU (pyOr acc b) ∧ (∀ u ∈ optsList (pyOr acc b), Frag u) ∧
      (∀ t ∈ optsList acc ++ [b], ∃ u ∈ optsList (pyOr acc b), pyEqSpec u t = true) := by
  have hallL : ∀ x ∈ optsList acc ++ [b], Frag x := by
    intro x hx
    rcases List.mem_append.1 hx with h | h
    · exact hopts x h
    · simp at h; rw [h]; exact hb
  have hcover : ∀ t ∈ optsList acc ++ [b],
      ∃ u ∈ dedupPyEqAux [] (optsList acc ++ [b]), pyEqSpec u t = true :=
    fun t ht => dedupPyEqAux_cover [] _ t ht (by simp)
  have hsub := dedupPyEqAux_subset [] (optsList acc ++ [b])
  have hob : optsList b = [b] := optsList_nonUnion (frag_nonUnion hb)
  rw [pyOr, hob]
  match hd : dedupPyEqAux [] (optsList acc ++ [b]) with
  | [] =>
      exfalso
      have hbmem : b ∈ optsList acc ++ [b] := by simp
      obtain ⟨u, hu, _⟩ := hcover b hbmem
      rw [hd] at hu
      cases hu
  | [x] =>
      simp only [hd]
      have hx : Frag x := hallL x (hsub x (by rw [hd]; simp))
      refine ⟨.base x hx, ?_, ?_⟩
      · rw [optsList_nonUnion (frag_nonUnion hx)]
        intro u hu
        simp at hu
        rw [hu]
        exact hx
      · rw [optsList_nonUnion (frag_nonUnion hx)]
        intro t ht
        obtain ⟨u, hu, hput⟩ := hcover t ht
        rw [hd] at hu
        simp at hu
        exact ⟨x, by simp, by rw [← hu]; exact hput⟩
  | x :: y :: ys =>
      simp only [hd]
      have hfr : ∀ u ∈ x :: y :: ys, Frag u := by
        intro u hu
        exact hallL u (hsub u (by rw [hd]; exact hu))
      refine ⟨.uni _ (by simp) hfr, ?_, ?_⟩
      · intro u hu
        rw [optsList] at hu
        exact hfr u hu
      · intro t ht
        obtain ⟨u, hu, hput⟩ := hcover t ht
        rw [hd] at hu
        exact ⟨u, by rw [optsList]; exact hu, hput⟩

theorem matchesVal_optsList {acc : TypeSpec} (h : FragU acc) (v : Value) :
    matchesVal v acc = (optsList acc).any fun u => matchesVal v u := by
  cases h with
  | base t hf =>
      rw [optsList_nonUnion (frag_nonUnion hf)]
      simp
  | uni opts hlen hall => rw [matchesVal_union, optsList]

theorem foldPyOr_inv :
    ∀ (xs : List TypeSpec) (acc : TypeSpec),
      FragU acc → (∀ u ∈ optsList acc, Frag u) → (∀ x ∈ xs, Frag x) →
      FragU (xs.foldl pyOr acc) ∧ (∀ u ∈ optsList (xs.foldl pyOr acc), Frag u) ∧
        ∀ v : Value,
          ((∃ u ∈ optsList acc, matchesVal v u = true) ∨
            (∃ x ∈ xs, matchesVal v x = true)) →
          matchesVal v (xs.foldl pyOr acc) = true := by
  intro xs
  induction xs with
  | nil =>
      intro acc hfa hopts _
      refine ⟨hfa, hopts, ?_⟩
      intro v h
      simp only [List.foldl_nil]
      rcases h with ⟨u, hu, hm⟩ | ⟨x, hx, _⟩
      · rw [matchesVal_optsList hfa]
        simp only [List.any_eq_true]
        exact ⟨u, hu, hm⟩
      · cases hx
  | cons b xs ih =>
      intro acc hfa hopts hxs
      simp only [List.foldl_cons]
      obtain ⟨hfu', hopts', hcov⟩ := pyOr_step hfa hopts (hxs b (by simp))
      obtain ⟨hf2, ho2, hm2⟩ := ih (pyOr acc b) hfu' hopts' (fun x hx => hxs x (by simp [hx]))
      refine ⟨hf2, ho2, ?_⟩
      intro v h
      apply hm2 v
      rcases h with ⟨u, hu, hm⟩ | ⟨x, hx, hm⟩
      · obtain ⟨u', hu', hpe⟩ := hcov u (List.mem_append_left _ hu)
        left
        refine ⟨u', hu', ?_⟩
        rw [pyEqMatches (.base u' (hopts' u' hu')) (.base u (hopts u hu)) hpe v]
        exact hm
      · rcases List.mem_cons.1 hx with rfl | hx2
        · obtain ⟨u', hu', hpe⟩ := hcov x (by simp)
          left
          refine ⟨u', hu', ?_⟩
          rw [pyEqMatches (.base u' (hopts' u' hu')) (.base x (hxs x (by simp))) hpe v]
          exact hm
        · right
          exact ⟨x, hx2, hm⟩

theorem dedupPretty_ne_nil {ts : List TypeSpec} (h : ts ≠ []) : dedupPretty ts ≠ [] := by
  match ts with
  | [] => exact absurd rfl h
  | t :: ts =>
      rw [dedupPretty, dedupPrettyAux]
      simp

theorem dedupPretty_subset {ts : List TypeSpec} :
    ∀ x ∈ dedupPretty ts, x ∈ ts :=
  dedupPrettyAux_subset [] ts

/-- The unionize result is a well-shaped unionized fragment. -/
theorem unionize_fragU {ts : List TypeSpec} (hall : ∀ x ∈ ts, Frag x) :
    FragU (unionize ts) ∧ ∀ u ∈ optsList (unionize ts), Frag u := by
  match hts : ts with
  | [] =>
      rw [unionize]
      simp only [List.isEmpty_nil, if_true]
      exact ⟨.base _ .fAny, by intro u hu; simp [optsList] at hu; rw [hu]; exact .fAny⟩
  | t0 :: ts0 =>
      rw [unionize]
      simp only [List.isEmpty_cons, if_false, Bool.false_eq_true]
      have hkeptall : ∀ x ∈ dedupPretty (t0 :: ts0), Frag x :=
        fun x hx => hall x (dedupPretty_subset x hx)
      match hd : dedupPretty (t0 :: ts0) with
      | [] => exact absurd hd (dedupPretty_ne_nil (by simp))
      | [x] =>
          have hx : Frag x := hkeptall x (by rw [hd]; simp)
          refine ⟨.base x hx, ?_⟩
          rw [optsList_nonUnion (frag_nonUnion hx)]
          intro u hu
          simp at hu
          rw [hu]
          exact hx
      | x :: y :: ys =>
          have hx : Frag x := hkeptall x (by rw [hd]; simp)
          have hrest : ∀ a ∈ y :: ys, Frag a :=
            fun a ha => hkeptall a (by rw [hd]; exact List.mem_cons_of_mem x ha)
          have := foldPyOr_inv (y :: ys) x (.base x hx)
            (by rw [optsList_nonUnion (frag_nonUnion hx)]; intro u hu; simp at hu;
                rw [hu]; exact hx)
            hrest
          exact ⟨this.1, this.2.1⟩

/-- A value matching some member of a fragment list matches its unionize. -/
theorem matchesUnionize {ts : List TypeSpec} (hall : ∀ x ∈ ts, Frag x)
    {v : Value} {t : TypeSpec} (ht : t ∈ ts) (hm : matchesVal v t = true) :
    matchesVal v (unionize ts) = true := by
  have hne : ts ≠ [] := by rintro rfl; cases ht
  have hkept : t ∈ dedupPretty ts := mem_dedupPretty hall ht
  have hkeptall : ∀ x ∈ dedupPretty ts, Frag x :=
    fun x hx => hall x (dedupPretty_subset x hx)
  rw [unionize]
  rw [if_neg (by simp [List.isEmpty_iff]; exact hne)]
  match hd : dedupPretty ts with
  | [] => exact absurd hd (dedupPretty_ne_nil hne)
  | [x] =>
      rw [hd] at hkept
      simp at hkept
      rw [← hkept]
      exact hm
  | x :: y :: ys =>
      have hx : Frag x := hkeptall x (by rw [hd]; simp)
      have hrest : ∀ a ∈ y :: ys, Frag a :=
        fun a ha => hkeptall a (by rw [hd]; exact List.mem_cons_of_mem x ha)
      have hinv := foldPyOr_inv (y :: ys) x (.base x hx)
        (by rw [optsList_nonUnion (frag_nonUnion hx)]; intro u hu; simp at hu;
            rw [hu]; exact hx)
        hrest
      apply hinv.2.2 v
      rw [hd] at hkept
      rcases List.mem_cons.1 hkept with rfl | h2
      · left
        rw [optsList_nonUnion (frag_nonUnion hx)]
        exact ⟨t, by simp, hm⟩
      · right
        exact ⟨t, h2, hm⟩

/-! ### Shape lemmas for inference on plain values -/

theorem infer_bool (b : Bool) : infer (.bool b) = .clsBool := by rw [infer]

theorem infer_int (n : Int) : infer (.int n) = .clsInt := by rw [infer]

theorem infer_str (s : String) : infer (.str s) = .clsStr := by rw [infer]

theorem infer_list (xs : List Value) :
    infer (.list xs) = .listOf (unionize (xs.map infer)) := by
  rw [infer]
  simp

theorem infer_tuple (xs : List Value) :
    infer (.tuple xs) = .tupleFixed (xs.map infer) := by
  rw [infer]
  simp

theorem infer_dict {es : List (Value × Value)} (h : es ≠ []) :
    infer (.dict es) = .dictOf (unionize (es.map fun e => infer e.1))
      (unionize (es.map fun e => infer e.2)) := by
  rw [infer]
  rw [if_neg (by simp [List.isEmpty_iff]; exact h)]
  have h1 : (es.attach.map fun e =>
      match e with
      | ⟨(a, b), hm⟩ =>
          have : sizeOf a < 1 + sizeOf es := by
            have := List.sizeOf_lt_of_mem hm; simp at this; omega
          infer a) = es.map fun e => infer e.1 := by
    have hfeq : (fun (e : {x // x ∈ es}) =>
        match e with
        | ⟨(a, b), hm⟩ =>
            have : sizeOf a < 1 + sizeOf es := by
              have := List.sizeOf_lt_of_mem hm; simp at this; omega
            infer a) = fun e => infer e.1.1 := by
      funext e
      obtain ⟨⟨a, b⟩, hm⟩ := e
      rfl
    rw [hfeq,
      show (fun (e : {x // x ∈ es}) => infer e.1.1) = (fun p => infer p.1) ∘ Subtype.val
        from rfl,
      ← List.map_map, List.attach_map_subtype_val]
  have h2 : (es.attach.map fun e =>
      match e with
      | ⟨(a, b), hm⟩ =>
          have : sizeOf b < 1 + sizeOf es := by
            have := List.sizeOf_lt_of_mem hm; simp at this; omega
          infer b) = es.map fun e => infer e.2 := by
    have hfeq : (fun (e : {x // x ∈ es}) =>
        match e with
        | ⟨(a, b), hm⟩ =>
            have : sizeOf b < 1 + sizeOf es := by
              have := List.sizeOf_lt_of_mem hm; simp at this; omega
            infer b) = fun e => infer e.1.2 := by
      funext e
      obtain ⟨⟨a, b⟩, hm⟩ := e
      rfl
    rw [hfeq,
      show (fun (e : {x // x ∈ es}) => infer e.1.2) = (fun p => infer p.2) ∘ Subtype.val
        from rfl,
      ← List.map_map, List.attach_map_subtype_val]
  rw [h1, h2]

theorem noInst_list (xs : List Value) : noInst (.list xs) = xs.all noInst := by
  rw [noInst]
  simp only [List.all_eq, List.mem_attach, true_implies, Subtype.forall]

theorem noInst_tuple (xs : List Value) : noInst (.tuple xs) = xs.all noInst := by
  rw [noInst]
  simp only [List.all_eq, List.mem_attach, true_implies, Subtype.forall]

theorem noInst_dict (es : List (Value × Value)) :
    noInst (.dict es) = es.all fun e => noInst e.1 && noInst e.2 := by
  rw [noInst]
  simp only [List.all_eq, List.mem_attach, true_implies, Subtype.forall]

/-- Inference on plain values lands in the fragment. -/
theorem inferFrag : ∀ N : Nat, ∀ v : Value, sizeOf v ≤ N → noInst v = true →
    Frag (infer v) := by
  intro N
  induction N using Nat.strong_induction_on with
  | _ N IH =>
    intro v hv hni
    match v with
    | .bool b => rw [infer_bool]; exact .fBool
    | .int n => rw [infer_int]; exact .fInt
    | .str s => rw [infer_str]; exact .fStr
    | .list xs =>
        rw [infer_list]
        simp only [Value.list.sizeOf_spec] at hv
        rw [noInst_list, List.all_eq_true] at hni
        refine .fList _ (unionize_fragU ?_).1
        intro t ht
        obtain ⟨x, hx, rfl⟩ := List.mem_map.1 ht
        have := List.sizeOf_lt_of_mem hx
        exact IH (sizeOf x) (by omega) x le_rfl (hni x hx)
    | .tuple xs =>
        rw [infer_tuple]
        simp only [Value.tuple.sizeOf_spec] at hv
        rw [noInst_tuple, List.all_eq_true] at hni
        refine .fTuple _ ?_
        intro t ht
        obtain ⟨x, hx, rfl⟩ := List.mem_map.1 ht
        have := List.sizeOf_lt_of_mem hx
        exact IH (sizeOf x) (by omega) x le_rfl (hni x hx)
    | .dict es =>
        match hes : es with
        | [] =>
            rw [show infer (.dict []) = .dictOf .any .any by rw [infer]; rfl]
            exact .fDict _ _ (.base _ .fAny) (.base _ .fAny)
        | e0 :: es0 =>
            rw [infer_dict (by simp)]
            simp only [Value.dict.sizeOf_spec] at hv
            rw [noInst_dict, List.all_eq_true] at hni
            refine .fDict _ _ (unionize_fragU ?_).1 (unionize_fragU ?_).1 <;>
              (intro t ht
               obtain ⟨x, hx, rfl⟩ := List.mem_map.1 ht
               have hsx := List.sizeOf_lt_of_mem hx
               have hnix := hni x hx
               rw [Bool.and_eq_true] at hnix)
            · have : sizeOf x.1 < sizeOf (e0 :: es0) := by
                obtain ⟨a, b⟩ := x; simp at hsx ⊢; omega
              exact IH (sizeOf x.1) (by omega) x.1 le_rfl hnix.1
            · have : sizeOf x.2 < sizeOf (e0 :: es0) := by
                obtain ⟨a, b⟩ := x; simp at hsx ⊢; omega
              exact IH (sizeOf x.2) (by omega) x.2 le_rfl hnix.2
    | .inst n p fs => rw [noInst] at hni; cases hni

theorem listMatches_selfmap {xs : List Value}
    (h : ∀ x ∈ xs, matchesVal x (infer x) = true) :
    listMatches xs (xs.map infer) = true := by
  induction xs with
  | nil => rw [List.map_nil, listMatches]
  | cons x xs ih =>
      rw [List.map_cons, listMatches, h x (by simp), ih fun a ha => h a (by simp [ha])]
      rfl

/-- Reflexivity of inference on values without dataclass instances. -/
theorem matchesInfer_aux : ∀ N : Nat, ∀ v : Value, sizeOf v ≤ N → noInst v = true →
    matchesVal v (infer v) = true := by
  intro N
  induction N using Nat.strong_induction_on with
  | _ N IH =>
    intro v hv hni
    match v with
    | .bool b => rw [infer_bool]; simp [matchesVal_def, matchesCore, isAnySpec]
    | .int n => rw [infer_int]; simp [matchesVal_def, matchesCore, isAnySpec]
    | .str s => rw [infer_str]; simp [matchesVal_def, matchesCore, isAnySpec]
    | .list xs =>
        simp only [Value.list.sizeOf_spec] at hv
        rw [noInst_list, List.all_eq_true] at hni
        have hfr : ∀ t ∈ xs.map infer, Frag t := by
          intro t ht
          obtain ⟨x, hx, rfl⟩ := List.mem_map.1 ht
          have := List.sizeOf_lt_of_mem hx
          exact inferFrag (sizeOf x) x le_rfl (hni x hx)
        rw [infer_list, matchesVal_nonAny (.list xs) (.listOf (unionize (xs.map infer))) rfl,
          matchesCore_listOf, List.all_eq_true]
        intro x hx
        have := List.sizeOf_lt_of_mem hx
        exact matchesUnionize hfr (List.mem_map_of_mem infer hx)
          (IH (sizeOf x) (by omega) x le_rfl (hni x hx))
    | .tuple xs =>
        simp only [Value.tuple.sizeOf_spec] at hv
        rw [noInst_tuple, List.all_eq_true] at hni
        rw [infer_tuple, matchesVal_nonAny (.tuple xs) (.tupleFixed (xs.map infer)) rfl,
          matchesCore_tupleFixed]
        match xs with
        | [] => simp
        | x :: xs =>
            rw [if_neg (by simp)]
            have hall : ∀ a ∈ x :: xs, matchesVal a (infer a) = true := by
              intro a ha
              have hsz2 := List.sizeOf_lt_of_mem ha
              exact IH (sizeOf a)
                (by simp only [List.cons.sizeOf_spec] at hsz2 hv; omega) a le_rfl (hni a ha)
            rw [listMatches_selfmap hall]
            simp
    | .dict es =>
        match es with
        | [] =>
            rw [show infer (.dict []) = .dictOf .any .any by rw [infer]; rfl]
            rw [matchesVal_nonAny (.dict []) (.dictOf .any .any) rfl, matchesCore_dictOf]
            rfl
        | e0 :: es0 =>
            simp only [Value.dict.sizeOf_spec] at hv
            rw [noInst_dict, List.all_eq_true] at hni
            have hele : ∀ e ∈ e0 :: es0,
                sizeOf e.1 < sizeOf (e0 :: es0) ∧ sizeOf e.2 < sizeOf (e0 :: es0) := by
              intro e he
              have := List.sizeOf_lt_of_mem he
              obtain ⟨a, b⟩ := e
              simp at this ⊢
              omega
            have hfrk : ∀ t ∈ (e0 :: es0).map fun e => infer e.1, Frag t := by
              intro t ht
              obtain ⟨x, hx, rfl⟩ := List.mem_map.1 ht
              have hnix := hni x hx
              rw [Bool.and_eq_true] at hnix
              exact inferFrag (sizeOf x.1) x.1 le_rfl hnix.1
            have hfrv : ∀ t ∈ (e0 :: es0).map fun e => infer e.2, Frag t := by
              intro t ht
              obtain ⟨x, hx, rfl⟩ := List.mem_map.1 ht
              have hnix := hni x hx
              rw [Bool.and_eq_true] at hnix
              exact inferFrag (sizeOf x.2) x.2 le_rfl hnix.2
            rw [infer_dict (by simp),
              matchesVal_nonAny (.dict (e0 :: es0))
                (.dictOf (unionize ((e0 :: es0).map fun e => infer e.1))
                  (unionize ((e0 :: es0).map fun e => infer e.2))) rfl,
              matchesCore_dictOf, List.all_eq_true]
            intro e he
            rw [Bool.and_eq_true]
            have hnie := hni e he
            rw [Bool.and_eq_true] at hnie
            constructor
            · exact matchesUnionize hfrk
                (List.mem_map_of_mem (fun e => infer e.1) he)
                (IH (sizeOf e.1) (by have := (hele e he).1; omega) e.1 le_rfl hnie.1)
            · exact matchesUnionize hfrv
                (List.mem_map_of_mem (fun e => infer e.2) he)
                (IH (sizeOf e.2) (by have := (hele e he).2; omega) e.2 le_rfl hnie.2)
    | .inst n p fs => rw [noInst] at hni; cases hni

theorem dedupPrettyAux_notSeen (seen : List String) (ts : List TypeSpec) :
    ∀ x ∈ dedupPrettyAux seen ts, seen.contains (pretty x) = false := by
  induction ts generalizing seen with
  | nil => simp [dedupPrettyAux]
  | cons t ts ih =>
      intro x hx
      rw [dedupPrettyAux] at hx
      split at hx
      · exact ih seen x hx
      · next hc =>
          rcases List.mem_cons.1 hx with rfl | h2
          · exact Bool.not_eq_true _ ▸ (by simpa using hc)
          · have := ih (pretty t :: seen) x h2
            rw [List.contains_cons] at this
            simp only [Bool.or_eq_false_iff] at this
            exact this.2

theorem dedupPrettyAux_pairwise (seen : List String) (ts : List TypeSpec) :
    (dedupPrettyAux seen ts).Pairwise fun a b => pretty a ≠ pretty b := by
  induction ts generalizing seen with
  | nil => simp [dedupPrettyAux]
  | cons t ts ih =>
      rw [dedupPrettyAux]
      split
      · exact ih seen
      · refine List.Pairwise.cons ?_ (ih (pretty t :: seen))
        intro x hx hpx
        have := dedupPrettyAux_notSeen (pretty t :: seen) ts x hx
        rw [List.contains_cons] at this
        simp only [Bool.or_eq_false_iff, beq_eq_false_iff_ne] at this
        exact this.1 hpx.symm

/-! ### The claims -/

/-- Claim C1: `validate(v, d)` returns normally exactly when the matcher
accepts, and otherwise raises the single `ValidationError` kind carrying the
printed forms of the expected spec and of the spec inferred from the value,
with the exact message text; in particular the `dict[str,int]` versus
`dict[str,str]` scenario produces the documented titles and message. -/
theorem c1_validate_contract :
    (∀ (v : Value) (d : TypeSpec),
      validate v d =
        if matchesVal v d then Except.ok ()
        else Except.error ⟨pretty d, pretty (infer v)⟩) ∧
    (∀ e a : String,
      errMessage ⟨e, a⟩ = "Expected value of type `" ++ e ++ "`, got `" ++ a ++ "`") ∧
    validate (.dict [(.str "x", .str "nope")]) (.dictOf .clsStr .clsInt) =
      Except.error ⟨"dict[str,int]", "dict[str,str]"⟩ ∧
    errMessage ⟨"dict[str,int]", "dict[str,str]"⟩ =
      "Expected value of type `dict[str,int]`, got `dict[str,str]`" := by
  refine ⟨fun v d => rfl, fun e a => rfl, ?_, by decide⟩
  simp [validate, matchesVal_def, matchesCore, isAnySpec, infer, unionize, dedupPretty,
    dedupPrettyAux, pretty]

/-- Claim C2, counterexample: the claim asserts `matches(true,
Primitive(integer))` is false, but the plain-class rule of the matcher is a
runtime `isinstance` check and the Python `bool` class is a subclass of `int`, so it
returns true. -/
theorem c2_counterexample : matchesVal (.bool true) .clsInt = true := by
  simp [matchesVal_def, matchesCore, isAnySpec]

/-- Claim C2, amended: `matches(true, Primitive(boolean))` is true, and the
inferencer keeps the boolean kind distinct from the integer kind
(`infer(true) = Primitive(boolean)`, and integers never match
`Primitive(boolean)`), but `matches(true, Primitive(integer))` is also true
because the plain-class rule of the matcher is a subclass check under which
boolean is a subclass of integer. -/
theorem c2_bool_int_amended :
    matchesVal (.bool true) .clsBool = true ∧
    matchesVal (.bool true) .clsInt = true ∧
    (∀ b : Bool, infer (.bool b) = .clsBool) ∧
    (∀ n : Int, matchesVal (.int n) .clsBool = false) := by
  refine ⟨by simp [matchesVal_def, matchesCore, isAnySpec],
    by simp [matchesVal_def, matchesCore, isAnySpec],
    fun b => infer_bool b,
    fun n => by simp [matchesVal_def, matchesCore, isAnySpec]⟩

/-- Claim C3, counterexample: for a generic dataclass instance whose type
variable cannot be resolved from any directly-annotated field (here
`Wrap[T]` with a single field of type `list[T]`), inference falls back to
the bare class, whose unsubstituted `T`-annotations then match nothing, so
`matches(v, infer(v))` is false. -/
theorem c3_counterexample :
    matchesVal (.inst "Wrap" ["T"] [("items", .listOf (.typeVar "T"), .list [.int 1])])
      (infer (.inst "Wrap" ["T"] [("items", .listOf (.typeVar "T"), .list [.int 1])])) =
      false := by
  rw [show infer (.inst "Wrap" ["T"] [("items", .listOf (.typeVar "T"), .list [.int 1])]) =
      .dataCls "Wrap" ["T"] [("items", .listOf (.typeVar "T"))] by
    simp [infer, setdefaultFold]]
  rw [matchesVal_nonAny _ (.dataCls "Wrap" ["T"] [("items", .listOf (.typeVar "T"))]) rfl,
    matchesCore]
  simp [isInstOf, fieldsEq, specEq, matchesFields_eq, fieldLookup, matchesVal_def,
    matchesCore_listOf, matchesCore, isAnySpec]

/-- Claim C3, amended: reflexivity of inference holds on every value built
without dataclass instances (booleans, integers, text, lists, tuples and
mappings, nested arbitrarily): `matches(v, infer(v))` is true for all such
values.  It can fail for instances of generic dataclasses whose type
variables inference cannot resolve. -/
theorem c3_reflexivity_amended (v : Value) (h : noInst v = true) :
    matchesVal v (infer v) = true :=
  matchesInfer_aux (sizeOf v) v le_rfl h

/-- Witness for the amended claim C3 at a concrete mixed value. -/
theorem c3_reflexivity_amended_witness :
    noInst (.list [.int 1, .str "a", .dict [(.str "k", .bool true)],
      .tuple [.int 2, .int 3]]) = true ∧
    matchesVal (.list [.int 1, .str "a", .dict [(.str "k", .bool true)],
        .tuple [.int 2, .int 3]])
      (infer (.list [.int 1, .str "a", .dict [(.str "k", .bool true)],
        .tuple [.int 2, .int 3]])) = true :=
  ⟨by simp [noInst_list, noInst_dict, noInst_tuple, noInst],
    c3_reflexivity_amended _
      (by simp [noInst_list, noInst_dict, noInst_tuple, noInst])⟩

/-- Claim C4: the matcher is a total Boolean function on every value and
every descriptor; unrecognized or malformed descriptor shapes — a bare type
variable, or `Any` hidden behind a `NewType` alias — are rejected (`false`)
rather than accepted or raised on, and `validate` can only fail with the
single `ValidationError` kind, carrying the two printed titles. -/
theorem c4_matcher_total :
    (∀ (v : Value) (t : TypeSpec), matchesVal v t = true ∨ matchesVal v t = false) ∧
    (∀ (v : Value) (name : String), matchesVal v (.typeVar name) = false) ∧
    (∀ (v : Value) (n : String), matchesVal v (.alias n .any) = false) ∧
    (∀ (v : Value) (t : TypeSpec),
      validate v t = Except.ok () ∨
        validate v t = Except.error ⟨pretty t, pretty (infer v)⟩) := by
  refine ⟨fun v t => Bool.dichotomy (matchesVal v t) |>.symm.imp id id, ?_, ?_, ?_⟩
  · intro v name
    rw [matchesVal_nonAny v (.typeVar name) rfl, matchesCore]
  · intro v n
    rw [matchesVal_nonAny v (.alias n .any) rfl, matchesCore, matchesCore]
  · intro v t
    rw [validate]
    split
    · exact Or.inl rfl
    · exact Or.inr rfl

/-- Claim C5: matching against a parameterized generic class performs a
runtime-class check, binds the declared type variables positionally to the
type arguments, substitutes them into the declared annotation of every field and
matches each stored field value against its substituted annotation; in
particular `Box[int]` accepts a `Box` holding `5` and rejects one holding
`"5"`. -/
theorem c5_generic_substitution :
    (∀ (v : Value) (n : String) (p : List String) (f : List (String × TypeSpec))
        (args : List TypeSpec),
      matchesVal v (.genericAlias n p f args) =
        match v with
        | .inst n' p' fs =>
            if isInstOf (.inst n' p' fs) n p f then matchesFields fs f (bindTV p args)
            else false
        | _ => false) ∧
    (∀ (fs : List (String × TypeSpec × Value)) (f : List (String × TypeSpec))
        (q : String × TypeSpec) (qs : List (String × TypeSpec)),
      matchesFields fs f (q :: qs) = f.all fun a =>
        match fieldLookup fs a.1 with
        | some w => matchesVal w (substTV a.2 (q :: qs))
        | none => false) ∧
    matchesVal (.inst "Box" ["T"] [("value", .typeVar "T", .int 5)])
      (.genericAlias "Box" ["T"] [("value", .typeVar "T")] [.clsInt]) = true ∧
    matchesVal (.inst "Box" ["T"] [("value", .typeVar "T", .str "5")])
      (.genericAlias "Box" ["T"] [("value", .typeVar "T")] [.clsInt]) = false := by
  refine ⟨?_, ?_, ?_, ?_⟩
  · intro v n p f args
    cases v <;> rw [matchesVal_nonAny _ (.genericAlias n p f args) rfl, matchesCore] <;> simp
  · intro fs f q qs
    rw [matchesFields_eq]
    simp
  · rw [matchesVal_nonAny _ (.genericAlias "Box" ["T"] [("value", .typeVar "T")] [.clsInt]) rfl,
      matchesCore]
    simp [isInstOf, fieldsEq, specEq, matchesFields_eq, fieldLookup, bindTV, substTV,
      lookupTV, matchesVal_def, matchesCore, isAnySpec]
  · rw [matchesVal_nonAny _ (.genericAlias "Box" ["T"] [("value", .typeVar "T")] [.clsInt]) rfl,
      matchesCore]
    simp [isInstOf, fieldsEq, specEq, matchesFields_eq, fieldLookup, bindTV, substTV,
      lookupTV, matchesVal_def, matchesCore, isAnySpec]

/-- Claim C6: a mapping matches a `TypedDict`-style record only if every
required field is present (and, being declared, matches), every present key
is declared and its value matches, and no key outside the declared fields is
present; the concrete mapping with the extra key `extra` fails against the
closed `User` record. -/
theorem c6_closed_record :
    (∀ (es : List (Value × Value)) (name : String) (ann : List (String × TypeSpec))
        (req : List String),
      matchesVal (.dict es) (.typedDict name ann req) =
        ((req.all fun k => es.any fun e => keyEqStr e.1 k) &&
          ((es.all fun e => ann.any fun a => keyEqStr e.1 a.1) &&
            (ann.all fun a =>
              match tdLookup es a.1 with
              | some w => matchesVal w a.2
              | none => !(req.contains a.1))))) ∧
    matchesVal (.dict [(.str "id", .int 1), (.str "name", .str "a"),
        (.str "extra", .bool true)])
      (.typedDict "User" [("id", .clsInt), ("name", .clsStr)] ["id", "name"]) = false := by
  constructor
  · intro es name ann req
    rw [matchesVal_nonAny _ (.typedDict name ann req) rfl, matchesCore_typedDict]
  · rw [matchesVal_nonAny _ (.typedDict "User" [("id", .clsInt), ("name", .clsStr)]
      ["id", "name"]) rfl, matchesCore_typedDict]
    simp [keyEqStr, tdLookup]

/-- Claim C7, counterexample: the claim requires a tuple to match
`FixedTuple(elements)` only when its length equals the number of element
specs, but the empty `FixedTuple` (`tuple[()]`, whose argument list is
empty) falls through the tuple cases of the matcher to the bare-class check, so
the one-element tuple `(1,)` matches it. -/
theorem c7_counterexample :
    matchesVal (.tuple [.int 1]) (.tupleFixed []) = true ∧
    [Value.int 1].length = 1 ∧ ([] : List TypeSpec).length = 0 := by
  refine ⟨?_, rfl, rfl⟩
  rw [matchesVal_nonAny _ (.tupleFixed []) rfl, matchesCore]
  rfl

/-- Claim C7, amended: for a nonempty element list, a tuple matches
`FixedTuple(elements)` exactly when its length equals the number of element
specs and each position matches positionally; the empty `FixedTuple`
instead accepts every tuple value (bare `isinstance` fallthrough).  A tuple
of any length matches `VariadicTuple(element)` exactly when every element
matches the single element spec.  The concrete scenarios hold as claimed. -/
theorem c7_tuples_amended :
    (∀ (xs : List Value) (d : TypeSpec) (ds : List TypeSpec),
      matchesVal (.tuple xs) (.tupleFixed (d :: ds)) =
        (decide (xs.length = (d :: ds).length) && listMatches xs (d :: ds))) ∧
    (∀ xs : List Value, matchesVal (.tuple xs) (.tupleFixed []) = true) ∧
    (∀ (xs : List Value) (e : TypeSpec),
      matchesVal (.tuple xs) (.tupleVar e) = xs.all fun x => matchesVal x e) ∧
    matchesVal (.tuple [.int 1, .str "a"]) (.tupleFixed [.clsInt, .clsStr]) = true ∧
    matchesVal (.tuple [.int 1, .str "a", .int 2])
      (.tupleFixed [.clsInt, .clsStr]) = false ∧
    matchesVal (.tuple [.int 1, .int 2, .int 3]) (.tupleVar .clsInt) = true := by
  refine ⟨?_, ?_, ?_, ?_, ?_, ?_⟩
  · intro xs d ds
    rw [matchesVal_nonAny _ (.tupleFixed (d :: ds)) rfl, matchesCore_tupleFixed]
    rw [if_neg (by simp)]
  · intro xs
    rw [matchesVal_nonAny _ (.tupleFixed []) rfl, matchesCore_tupleFixed]
    simp
  · intro xs e
    rw [matchesVal_nonAny _ (.tupleVar e) rfl, matchesCore_tupleVar]
  · rw [matchesVal_nonAny _ (.tupleFixed [.clsInt, .clsStr]) rfl, matchesCore_tupleFixed]
    simp [listMatches, matchesVal_def, matchesCore, isAnySpec]
  · rw [matchesVal_nonAny _ (.tupleFixed [.clsInt, .clsStr]) rfl, matchesCore_tupleFixed]
    simp
  · rw [matchesVal_nonAny _ (.tupleVar .clsInt) rfl, matchesCore_tupleVar]
    simp [matchesVal_def, matchesCore, isAnySpec]

/-- Claim C8, counterexample: the claim asserts that after deduplication by
printed form, multiple surviving descriptors are combined into one Union;
but the runtime union operator used for the combination deduplicates by
runtime equality, under which unions with the same options in different
order are equal.  For `[list[int | str], list[str | int]]` both survivors
are kept by the printed-form deduplication (their printed forms differ),
yet unionize returns the first survivor alone, not a Union of the two. -/
theorem c8_counterexample :
    dedupPretty [TypeSpec.listOf (.union [.clsInt, .clsStr]),
        .listOf (.union [.clsStr, .clsInt])] =
      [.listOf (.union [.clsInt, .clsStr]), .listOf (.union [.clsStr, .clsInt])] ∧
    (pretty (TypeSpec.listOf (.union [.clsInt, .clsStr])) ==
      pretty (.listOf (.union [.clsStr, .clsInt]))) = false ∧
    unionize [TypeSpec.listOf (.union [.clsInt, .clsStr]),
        .listOf (.union [.clsStr, .clsInt])] =
      .listOf (.union [.clsInt, .clsStr]) := by
  refine ⟨?_, ?_, ?_⟩
  · simp [dedupPretty, dedupPrettyAux, pretty, prettyList]
  · simp [pretty, prettyList]
  · rw [unionize]
    simp [dedupPretty, dedupPrettyAux, pretty, prettyList, pyOr, optsList,
      dedupPyEqAux, pyEqSpec, subPyEq, supPyEq, anyRightPyEq, anyLeftPyEq, specEq]

/-- Claim C8, amended: `unionize` of the empty list is `Any`; otherwise the
list is deduplicated by canonical printed form keeping first occurrences
(the kept list is a subset of the input, has pairwise-distinct printed
forms, and contains a representative of the printed form of every input), a
single survivor is returned as-is, and multiple survivors are combined
left-to-right with the runtime union operator — which flattens its operands
and deduplicates them by runtime equality, an equality that treats unions
with the same options as equal regardless of order, so runtime-equal
survivors collapse and the result need not be a Union of all survivors. -/
theorem c8_unionize_amended :
    unionize [] = .any ∧
    (∀ (t : TypeSpec) (ts' : List TypeSpec),
      unionize (t :: ts') =
        match dedupPretty (t :: ts') with
        | [] => .any
        | [x] => x
        | x :: rest => rest.foldl pyOr x) ∧
    (∀ ts : List TypeSpec, ∀ x ∈ dedupPretty ts, x ∈ ts) ∧
    (∀ ts : List TypeSpec, ∀ t ∈ ts, ∃ t' ∈ dedupPretty ts, pretty t' = pretty t) ∧
    (∀ ts : List TypeSpec,
      (dedupPretty ts).Pairwise fun a b => pretty a ≠ pretty b) ∧
    (∀ a b : TypeSpec,
      pyOr a b =
        match dedupPyEqAux [] (optsList a ++ optsList b) with
        | [x] => x
        | ys => .union ys) ∧
    (∀ xs ys : List TypeSpec,
      pyEqSpec (.union xs) (.union ys) = (subPyEq xs ys && supPyEq xs ys)) := by
  refine ⟨rfl, ?_, ?_, ?_, ?_, ?_, ?_⟩
  · intro t ts'
    rw [unionize, if_neg (by simp)]
  · exact fun ts => dedupPretty_subset
  · exact fun ts t ht => dedupPrettyAux_cover [] ts t ht (by simp)
  · exact fun ts => dedupPrettyAux_pairwise [] ts
  · intro a b
    rw [pyOr]
  · intro xs ys
    rw [pyEqSpec]

/-- Witness for the amended claim C8: the deduplication facts applied to a
concrete two-element list with one duplicated printed form. -/
theorem c8_unionize_amended_witness :
    (TypeSpec.clsInt ∈ dedupPretty [.clsInt, .clsInt, .clsStr]) ∧
    (TypeSpec.clsInt ∈ ([.clsInt, .clsInt, .clsStr] : List TypeSpec)) ∧
    (∃ t' ∈ dedupPretty [TypeSpec.clsInt, .clsInt, .clsStr],
      pretty t' = pretty TypeSpec.clsInt) := by
  have hx : TypeSpec.clsInt ∈ dedupPretty [.clsInt, .clsInt, .clsStr] := by
    have : dedupPretty [TypeSpec.clsInt, .clsInt, .clsStr] = [.clsInt, .clsStr] := by
      simp [dedupPretty, dedupPrettyAux, pretty]
    rw [this]
    simp
  exact ⟨hx, c8_unionize_amended.2.2.1 _ _ hx,
    c8_unionize_amended.2.2.2.1 [.clsInt, .clsInt, .clsStr] TypeSpec.clsInt (by simp)⟩

/-- Claim C9: `Literal` matching succeeds exactly when the value equals one
of the listed concrete values under Python value equality, with no coercion
between text and numbers: `5` matches `Literal[5]`, does not match
`Literal[6]`, and the string `"5"` does not match `Literal[5]` (nor `5` the
string literal `"5"`). -/
theorem c9_literal_exactness :
    (∀ (v : Value) (vals : List LitVal),
      matchesVal v (.lit vals) = vals.any fun l => pyEqValLit v l) ∧
    matchesVal (.int 5) (.lit [.int 5]) = true ∧
    matchesVal (.int 5) (.lit [.int 6]) = false ∧
    matchesVal (.str "5") (.lit [.int 5]) = false ∧
    matchesVal (.int 5) (.lit [.str "5"]) = false := by
  refine ⟨?_, ?_, ?_, ?_, ?_⟩
  · intro v vals
    rw [matchesVal_nonAny v (.lit vals) rfl, matchesCore]
  all_goals simp [matchesVal_def, matchesCore, isAnySpec, pyEqValLit]

/-- Claim C10: since literal matching uses Python value equality and the
runtime treats `True` as equal to `1` and `False` as equal to `0`, a
`Literal` of integers accepts the numerically equal booleans and vice
versa, even though the matcher otherwise keeps the boolean kind distinct. -/
theorem c10_literal_bool_int :
    matchesVal (.bool true) (.lit [.int 1]) = true ∧
    matchesVal (.int 1) (.lit [.bool true]) = true ∧
    matchesVal (.bool false) (.lit [.int 0]) = true ∧
    matchesVal (.int 0) (.lit [.bool false]) = true := by
  refine ⟨?_, ?_, ?_, ?_⟩ <;> simp [matchesVal_def, matchesCore, isAnySpec, pyEqValLit]
